import Mathlib

/-!
Verification development for the terminal-table-printer layout engine.

The TypeScript sources are shallowly embedded below:
  * strings are modelled as lists of tokens (`Ch`): printable glyphs carrying
    their terminal display width, and zero-width ANSI escape markers
    (the string-width library strips escape sequences when measuring);
  * the chalk styling backend is modelled abstractly: applying a style wraps
    the text in open/close escape markers tagged with the style operations;
  * JavaScript numbers used as row offsets and limits are modelled as `Int`;
    widths, padding, and flex weights (non-negative in every use) as `Nat`;
    the floating point expression `Math.floor(space * (flex / totalFlex))`
    is idealised to exact integer floor division;
  * fallible operations (row access out of bounds) return `Except`.
-/

set_option maxHeartbeats 1000000

namespace TTP

/-- A display token: a printable glyph with its terminal column width, or a
zero-width ANSI escape marker (open or close) tagged with a style operation. -/
inductive StyleOp where
  | fgHex (h : String)
  | fgNamed (n : String)
  | bgHex (h : String)
  | bgNamed (n : String)
  | bold
  | italic
  | underline
deriving DecidableEq, Repr

inductive Ch where
  | glyph (c : Char) (w : Nat)
  | escOpen (op : StyleOp)
  | escClose (op : StyleOp)
deriving DecidableEq, Repr

abbrev Str := List Ch

/-- Display width of one token; escape markers are zero-width, matching how
the string-width library strips ANSI escape sequences before measuring. -/
def chWidth : Ch → Nat
  | .glyph _ w => w
  | .escOpen _ => 0
  | .escClose _ => 0

/-- Embeds `stringWidth(s)`. -/
def strWidth (s : Str) : Nat := (s.map chWidth).sum

/-- A single space glyph. -/
def sp : Ch := .glyph ' ' 1

/-- Embeds `" ".repeat(n)`. -/
def spaces (n : Nat) : Str := List.replicate n sp

/-- Lifts a Lean string literal (column names, default texts) into the token
model; such literals consist of ordinary width-1 characters. -/
def ofString (s : String) : Str := s.toList.map (fun c => Ch.glyph c 1)

/-- Embeds `Array.prototype.join(sep)`. -/
def joinSep (sep : Str) : List Str → Str
  | [] => []
  | [x] => x
  | x :: y :: xs => x ++ sep ++ joinSep sep (y :: xs)

/-- Embeds `line.repeat(n)` for a border string. -/
def repeatStr (s : Str) (n : Nat) : Str := (List.replicate n s).flatten

/-- Longest prefix of `s` whose cumulative display width fits in `budget`;
embeds the incremental scan loops in `alignAndTruncateText` (both the text
scan and the marker clipping loop stop at the first token that no longer
fits, and token widths are non-negative, so this is the same prefix). -/
def takeFit (budget : Nat) : Str → Str
  | [] => []
  | c :: cs => if chWidth c ≤ budget then c :: takeFit (budget - chWidth c) cs else []

/-- Does `hay` start with `needle`? -/
def seqStarts : Str → Str → Bool
  | _, [] => true
  | [], _ :: _ => false
  | h :: hs, n :: ns => h == n && seqStarts hs ns

/-- Does `hay` contain `needle` as a contiguous run (JS `String.includes`)? -/
def containsSeq : Str → Str → Bool
  | [], needle => needle.isEmpty
  | h :: t, needle => seqStarts (h :: t) needle || containsSeq t needle

/-- Embeds `text.includes("\u001b[")`: the token model represents every ANSI
escape introducer by an escape marker token. -/
def containsEsc (s : Str) : Bool :=
  s.any (fun c => match c with
    | .escOpen _ => true
    | .escClose _ => true
    | .glyph _ _ => false)

/-- Embeds `s.startsWith("#")` on color strings. -/
def startsHash (s : String) : Bool :=
  match s.toList with
  | c :: _ => c == '#'
  | [] => false

/-- Every token is a width-1 printable glyph (no escapes, no wide or
zero-width glyphs). -/
def plainStr (s : Str) : Bool :=
  s.all (fun c => match c with
    | .glyph _ w => w == 1
    | _ => false)

/-- Embeds `s.trim() === ""`: true when the text contains only blank glyphs.
Escape markers stand for non-whitespace characters, so they are not blank. -/
def isBlank (s : Str) : Bool :=
  s.all (fun c => match c with
    | .glyph c _ => c == ' '
    | _ => false)

/-- Embeds the `Style` interface: all attributes independently optional. -/
structure Style where
  color : Option String := none
  backgroundColor : Option String := none
  bold : Option Bool := none
  italic : Option Bool := none
  underline : Option Bool := none
deriving DecidableEq, Repr

/-- Embeds the object spread `{ ...a, ...b }` on styles: attributes defined by
`b` win, attributes `b` leaves undefined fall through to `a`. -/
def Style.merge (a b : Style) : Style where
  color := b.color.orElse (fun _ => a.color)
  backgroundColor := b.backgroundColor.orElse (fun _ => a.backgroundColor)
  bold := b.bold.orElse (fun _ => a.bold)
  italic := b.italic.orElse (fun _ => a.italic)
  underline := b.underline.orElse (fun _ => a.underline)

/-- Right-biased four-stage attribute fall-through, highest precedence first. -/
def fallback4 (a b c d : Option α) : Option α :=
  a.orElse (fun _ => b.orElse (fun _ => c.orElse (fun _ => d)))

/-- Embeds `CHALK_COLOR_NAMES`. -/
def chalkColorNames : List String :=
  ["black", "red", "green", "yellow", "blue", "magenta", "cyan", "white",
   "gray", "grey", "blackBright", "redBright", "greenBright", "yellowBright",
   "blueBright", "magentaBright", "cyanBright", "whiteBright"]

/-- Embeds `CHALK_BACKGROUND_COLORS`. -/
def chalkBackgroundColors : List (String × String) :=
  [("black", "bgBlack"), ("red", "bgRed"), ("green", "bgGreen"),
   ("yellow", "bgYellow"), ("blue", "bgBlue"), ("magenta", "bgMagenta"),
   ("cyan", "bgCyan"), ("white", "bgWhite"), ("gray", "bgGray"),
   ("grey", "bgGrey"), ("blackBright", "bgBlackBright"),
   ("redBright", "bgRedBright"), ("greenBright", "bgGreenBright"),
   ("yellowBright", "bgYellowBright"), ("blueBright", "bgBlueBright"),
   ("magentaBright", "bgMagentaBright"), ("cyanBright", "bgCyanBright"),
   ("whiteBright", "bgWhiteBright")]

/-- Embeds `CHALK_BACKGROUND_COLOR_NAMES`. -/
def chalkBackgroundColorNames : List String := chalkBackgroundColors.map Prod.snd

/-- Foreground-color branch of `applyStyle`: hex codes are applied, known
palette names are applied, anything else is silently skipped. -/
def colorOps (style : Style) : List StyleOp :=
  match style.color with
  | none => []
  | some c =>
    if startsHash c then [StyleOp.fgHex c]
    else if chalkColorNames.contains c then [StyleOp.fgNamed c]
    else []

/-- Background-color branch of `applyStyle`, restricted to the inputs on
which the source does not throw: hex codes, known background names, and
foreground names mapped through `CHALK_BACKGROUND_COLORS` are applied,
other values skipped.  The faithful branch including the prototype-chain
error path is `bgResolve` below, which returns exactly this list whenever
it succeeds. -/
def bgOps (style : Style) : List StyleOp :=
  match style.backgroundColor with
  | none => []
  | some c =>
    if startsHash c then [StyleOp.bgHex c]
    else if chalkBackgroundColorNames.contains c then [StyleOp.bgNamed c]
    else
      match chalkBackgroundColors.lookup c with
      | some m => [StyleOp.bgNamed m]
      | none => []

/-- Flag branch of `applyStyle`: bold / italic / underline when truthy. -/
def flagOps (style : Style) : List StyleOp :=
  (if style.bold.getD false then [StyleOp.bold] else []) ++
  (if style.italic.getD false then [StyleOp.italic] else []) ++
  (if style.underline.getD false then [StyleOp.underline] else [])

/-- The chalk chain built by `applyStyle`, in source order. -/
def applyStyleOps (style : Style) : List StyleOp :=
  colorOps style ++ bgOps style ++ flagOps style

/-- Applying a chalk chain to text: the styled text is the original wrapped
in zero-width escape markers (an empty chain is plain `chalk`, the identity). -/
def styleWrap (ops : List StyleOp) (t : Str) : Str :=
  ops.map Ch.escOpen ++ t ++ (ops.reverse.map Ch.escClose)

/-- Embeds `TableFormatter.applyStyle` on its non-throwing inputs: text
already containing an escape marker (pre-styled formatter output) is
returned unchanged; otherwise the chalk chain for the style is applied.
The faithful fallible semantics — including the TypeError thrown when
`backgroundColor` names an inherited `Object.prototype` member — is
`applyStyleJS` below, which agrees with this function whenever it
succeeds; the render pipeline is embedded over this restriction. -/
def applyStyle (text : Str) (style : Style) : Str :=
  if containsEsc text then text else styleWrap (applyStyleOps style) text

/-- The property names every plain JavaScript object literal inherits from
`Object.prototype`, all of them truthy (eleven functions plus the
`__proto__` accessor, whose value is `Object.prototype` itself). -/
def objectProtoKeys : List String :=
  ["constructor", "hasOwnProperty", "isPrototypeOf", "propertyIsEnumerable",
   "toLocaleString", "toString", "valueOf", "__defineGetter__",
   "__defineSetter__", "__lookupGetter__", "__lookupSetter__", "__proto__"]

/-- Faithful background-color branch of `applyStyle`, including its
JavaScript error path.  The fallback test `CHALK_BACKGROUND_COLORS[b]` reads
a plain object literal, so it is truthy not only on the eighteen own keys
(the foreground names, consulted first here exactly as own properties shadow
the prototype) but also on every name inherited from `Object.prototype`: on
those names the source takes the branch, the indexing
`styler[CHALK_BACKGROUND_COLORS[b]]` coerces a non-string key and yields
`undefined`, and the later property access or final call `styler(text)`
throws a TypeError — modelled as `Except.error ()`. -/
def bgResolve (style : Style) : Except Unit (List StyleOp) :=
  match style.backgroundColor with
  | none => Except.ok []
  | some c =>
    if startsHash c then Except.ok [StyleOp.bgHex c]
    else if chalkBackgroundColorNames.contains c then Except.ok [StyleOp.bgNamed c]
    else
      match chalkBackgroundColors.lookup c with
      | some m => Except.ok [StyleOp.bgNamed m]
      | none => if objectProtoKeys.contains c then Except.error () else Except.ok []

/-- Embeds `TableFormatter.applyStyle` with its error path: pre-styled text
short-circuits before any styler is touched; otherwise the chalk chain is
assembled in source order, and a `backgroundColor` naming an inherited
`Object.prototype` member leaves `styler` `undefined`, so applying the style
throws (`Except.error ()`).  The color branch tests membership with
`Array.prototype.includes` and a genuine own-key lookup cannot fail, so only
the background branch can throw. -/
def applyStyleJS (text : Str) (style : Style) : Except Unit Str :=
  if containsEsc text then Except.ok text
  else
    match bgResolve style with
    | Except.error e => Except.error e
    | Except.ok bops => Except.ok (styleWrap (colorOps style ++ bops ++ flagOps style) text)

/-- Primitive values inside a nested cell object (`CellTypeObject`). -/
inductive CellPrim where
  | str (s : String)
  | num (n : Int)
  | bool (b : Bool)
  | null
deriving DecidableEq, Repr

/-- Embeds `CellTypes`: string, number, boolean, null, or a flat object of
primitives. Strings are carried in the token model so that data may contain
wide glyphs or pre-styled escape markers; JavaScript numbers are idealised
to integers. -/
inductive Cell where
  | str (s : Str)
  | num (n : Int)
  | bool (b : Bool)
  | null
  | obj (kvs : List (String × CellPrim))
deriving DecidableEq, Repr

def CellPrim.jsonText : CellPrim → String
  | .str s => "\"" ++ s ++ "\""
  | .num n => toString n
  | .bool b => if b then "true" else "false"
  | .null => "null"

/-- Embeds `JSON.stringify(cell)` for a flat object cell. -/
def jsonOfObj (kvs : List (String × CellPrim)) : Str :=
  ofString ("\x7b" ++
    String.intercalate (",") (kvs.map (fun kv => "\"" ++ kv.1 ++ "\":" ++ kv.2.jsonText)) ++
    "\x7d")

/-- Embeds `String(n)` for an integral JavaScript number. -/
def intToStr (n : Int) : Str := ofString (toString n)

/-- Per-column or global cell padding. -/
structure PadSpec where
  left : Nat := 1
  right : Nat := 1
deriving DecidableEq, Repr

inductive Alignment where
  | left
  | right
  | center
deriving DecidableEq, Repr

/-- Embeds the `ColumnConfig` interface of the current revision (including the
responsive-layout fields `minWidth`, `maxWidth`, `flexGrow` read by
`distributeWidths`; `maxWidth = none` is the `Infinity` default). -/
structure ColumnConfig where
  header : Option Str := none
  alignment : Option Alignment := none
  style : Option Style := none
  headerStyle : Option Style := none
  formatter : Option (Cell → Int → Str) := none
  cellStyle : Option (Cell → Option Style) := none
  padding : Option PadSpec := none
  minWidth : Option Nat := none
  maxWidth : Option Nat := none
  flexGrow : Option Nat := none

/-- Embeds `TableTheme`. -/
structure TableTheme where
  header : Style := {}
  cell : Style := {}
  alternatingCell : Style := {}
  footer : Style := {}

/-- Embeds `BorderChars` (each glyph an arbitrary piece of text, as in the
source where the examples also use blank or empty border strings). -/
structure BorderChars where
  horizontal : Str
  vertical : Str
  topLeft : Str
  topRight : Str
  bottomLeft : Str
  bottomRight : Str
  headerLeft : Str
  headerRight : Str
  topSeparator : Str
  middleSeparator : Str
  bottomSeparator : Str
  cellSeparator : Str

/-- Embeds `SINGLE_LINE_BORDER`, the default border set. -/
def SINGLE_LINE_BORDER : BorderChars where
  horizontal := [Ch.glyph '─' 1]
  vertical := [Ch.glyph '│' 1]
  topLeft := [Ch.glyph '┌' 1]
  topRight := [Ch.glyph '┐' 1]
  bottomLeft := [Ch.glyph '└' 1]
  bottomRight := [Ch.glyph '┘' 1]
  headerLeft := [Ch.glyph '├' 1]
  headerRight := [Ch.glyph '┤' 1]
  topSeparator := [Ch.glyph '┬' 1]
  middleSeparator := [Ch.glyph '┼' 1]
  bottomSeparator := [Ch.glyph '┴' 1]
  cellSeparator := [Ch.glyph '│' 1]

/-- Embeds `DEFAULT_THEME` (header bold, cell unstyled, alternating and
footer gray), the result of the constructor's deep merge when no theme
override is configured. -/
def DEFAULT_THEME : TableTheme where
  header := { bold := some true }
  cell := {}
  alternatingCell := { color := some ("gray") }
  footer := { color := some ("gray") }

/-- Embeds `DEFAULT_PADDING`. -/
def DEFAULT_PADDING : PadSpec := {}

/-- Embeds the default truncation marker, a single width-1 ellipsis glyph. -/
def DEFAULT_TRUNCATION_CHAR : Str := [Ch.glyph '…' 1]

/-- Embeds `FooterInfo`. -/
structure FooterInfo where
  totalRows : Int
  displayedRows : Int
  isTruncated : Bool
  startRow : Int
  endRow : Int

/-- Embeds `TableConfig` after the constructor's default merging: `border` and
`theme` hold the merge of the defaults with any configured overrides, and the
column record is a lookup function. -/
structure TableConfig where
  maxWidth : Option Nat := none
  padding : Option PadSpec := none
  truncationChar : Option Str := none
  rowLimit : Option Int := none
  rowOffset : Option Int := none
  border : BorderChars := SINGLE_LINE_BORDER
  columns : String → Option ColumnConfig := fun _ => none
  footer : Option (FooterInfo → Str) := none
  theme : TableTheme := DEFAULT_THEME
  alternatingRows : Bool := false
  rowStyle : Option (List (String × Cell) → Option Style) := none

/-- Embeds `JSONDataSource`: an array of keyed rows; column names are the keys
of the first row, in order. -/
structure JSONDataSource where
  data : List (List (String × Cell))

def JSONDataSource.columnNames (s : JSONDataSource) : List String :=
  match s.data with
  | [] => []
  | r :: _ => r.map Prod.fst

def JSONDataSource.rowCount (s : JSONDataSource) : Nat := s.data.length

/-- Embeds `JSONDataSource.getArrayRow`: out-of-range indices fail; otherwise
the row's values are returned in stored column order, absent keys as null. -/
def JSONDataSource.getArrayRow (s : JSONDataSource) (rowIndex : Int) : Except String (List Cell) :=
  if rowIndex < 0 ∨ (s.data.length : Int) ≤ rowIndex then
    .error ("Row index out of bounds: " ++ toString rowIndex)
  else
    .ok ((JSONDataSource.columnNames s).map
      (fun name => (List.lookup name (s.data.getD rowIndex.toNat [])).getD Cell.null))

/-- Modelled from the spec: the current revision of the JSON data source file
(implementing `getObjectRow` from the `ITableDataSource` interface) is not in
the source tree — only an earlier revision without this method is.  The spec
describes it as `rowAsKeyedValues(index) → mapping of key to raw value for the
same row`, failing with an out-of-range condition like the ordered accessor. -/
def JSONDataSource.getObjectRow (s : JSONDataSource) (rowIndex : Int) :
    Except String (List (String × Cell)) :=
  if rowIndex < 0 ∨ (s.data.length : Int) ≤ rowIndex then
    .error ("Row index out of bounds: " ++ toString rowIndex)
  else
    .ok (s.data.getD rowIndex.toNat [])

/-- Column config for column index `i`: `config.columns?.[columnNames[i]]`. -/
def colConfigAt (cfg : TableConfig) (cols : List String) (i : Nat) : Option ColumnConfig :=
  (cols.get? i).bind cfg.columns

/-- Padding chain `columns?.[col]?.padding ?? config.padding ?? DEFAULT_PADDING`. -/
def padAt (cfg : TableConfig) (cols : List String) (i : Nat) : PadSpec :=
  match (colConfigAt cfg cols i).bind (fun c => c.padding) with
  | some p => p
  | none => cfg.padding.getD DEFAULT_PADDING

/-- `colConfig?.minWidth ?? 1`. -/
def minAt (cfg : TableConfig) (cols : List String) (i : Nat) : Nat :=
  ((colConfigAt cfg cols i).bind (fun c => c.minWidth)).getD 1

/-- `colConfig?.maxWidth ?? Infinity` (`none` is the unbounded default). -/
def maxAt (cfg : TableConfig) (cols : List String) (i : Nat) : Option Nat :=
  (colConfigAt cfg cols i).bind (fun c => c.maxWidth)

/-- `colConfig?.flexGrow ?? 0`. -/
def flexAt (cfg : TableConfig) (cols : List String) (i : Nat) : Nat :=
  ((colConfigAt cfg cols i).bind (fun c => c.flexGrow)).getD 0

/-- `columnConfig?.alignment ?? "left"`. -/
def alignmentAt (cfg : TableConfig) (cols : List String) (i : Nat) : Alignment :=
  ((colConfigAt cfg cols i).bind (fun c => c.alignment)).getD Alignment.left

/-- Embeds `Math.max(min, Math.min(w, max))`, the per-column constraint step
of `distributeWidths` (the second argument of `Math.min` is `Infinity` when
no maximum is configured). -/
def clampW (w : Nat) (lo : Nat) (hi : Option Nat) : Nat :=
  max lo (match hi with
    | some h => min w h
    | none => w)

/-- Embeds `TableFormatter.calculateColumnWidths` on its render-reachable
inputs: headers' display widths, bumped to each windowed cell's display width
where larger.  Every row reaching it from `render` has exactly one cell per
column (`getArrayRow` maps the column-name list), and on rows no longer than
the header list this embedding is exact; on a longer row the source's
`widths[i] = cellWidth` would instead extend the array past its length
(sparsely, when a trailing cell has display width 0), a case unreachable
from `render` and not modelled — here trailing extra cells are dropped. -/
def bumpWidths : List Nat → List Str → List Nat
  | ws, [] => ws
  | [], _ :: _ => []
  | w :: ws, c :: cs => max w (strWidth c) :: bumpWidths ws cs

def calculateColumnWidths (headers : List Str) (dataWindow : List (List Str)) : List Nat :=
  dataWindow.foldl (fun ws row => bumpWidths ws row) (headers.map strWidth)

/-- Sum of per-column padding over the first `n` columns, as accumulated by
`distributeWidths`. -/
def totalPaddingOf (cfg : TableConfig) (cols : List String) (n : Nat) : Nat :=
  ((List.range n).map (fun i => (padAt cfg cols i).left + (padAt cfg cols i).right)).sum

/-- `availableWidth − borderOverhead − totalPadding`, the content budget of
`distributeWidths` (truncated `Nat` subtraction: a negative JavaScript budget
behaves identically, since both grow and shrink phases bottom out at the
minimum widths in that case). -/
def contentBudgetOf (cfg : TableConfig) (cols : List String) (n : Nat) (availableWidth : Nat) : Nat :=
  availableWidth - (n + 1) - totalPaddingOf cfg cols n

/-- Constraint phase of `distributeWidths`: clamp each ideal width. -/
def constrainedOf (cfg : TableConfig) (cols : List String) (idealWidths : List Nat) : List Nat :=
  (List.range idealWidths.length).map
    (fun i => clampW (idealWidths.getD i 0) (minAt cfg cols i) (maxAt cfg cols i))

/-- Columns with a truthy `flexGrow`, in column order. -/
def flexColsOf (cfg : TableConfig) (cols : List String) (n : Nat) : List Nat :=
  (List.range n).filter (fun i => decide (0 < flexAt cfg cols i))

/-- Flexible columns still below their configured maximum. -/
def growableOf (cfg : TableConfig) (cols : List String) (flexCols : List Nat) (ws : List Nat) : List Nat :=
  flexCols.filter (fun i =>
    match maxAt cfg cols i with
    | some m => decide (ws.getD i 0 < m)
    | none => true)

/-- Total flex weight of the growable columns. -/
def totalFlexOf (cfg : TableConfig) (cols : List String) (g : List Nat) : Nat :=
  (g.map (fun i => flexAt cfg cols i)).sum

/-- Growth granted to column `i` in one iteration: the floor of its
proportional share of the space available at the start of the iteration
(`Math.floor(spaceToDistribute * (flexGrow / totalGrowableFlex))`, idealised
to exact integer arithmetic), capped by the room below its maximum. -/
def growthAmt (cfg : TableConfig) (cols : List String) (tf : Nat) (space : Nat)
    (ws : List Nat) (i : Nat) : Nat :=
  match maxAt cfg cols i with
  | some m => min (space * flexAt cfg cols i / tf) (m - ws.getD i 0)
  | none => space * flexAt cfg cols i / tf

/-- Body of one growth iteration for one growable column: apply its growth
when positive and account the distributed space. -/
def growthStep (cfg : TableConfig) (cols : List String) (tf : Nat) (space : Nat)
    (acc : List Nat × Nat) (i : Nat) : List Nat × Nat :=
  if 0 < growthAmt cfg cols tf space acc.1 i then
    (acc.1.set i (acc.1.getD i 0 + growthAmt cfg cols tf space acc.1 i),
     acc.2 + growthAmt cfg cols tf space acc.1 i)
  else acc

/-- One iteration of the growth phase over all growable columns; returns the
updated widths and the space distributed in this iteration. -/
def growthCycle (cfg : TableConfig) (cols : List String) (g : List Nat) (tf : Nat)
    (ws : List Nat) (space : Nat) : List Nat × Nat :=
  g.foldl (growthStep cfg cols tf space) (ws, 0)

/-- The iterative growth loop of `distributeWidths`, with explicit fuel.  The
loop exits when the remaining space is exhausted, no flexible column can still
grow, the growable flex weight is zero, or an iteration distributes no space;
each continuing iteration distributes at least one unit, so `remaining` units
of fuel always suffice (this is the termination argument, proved below). -/
def growthLoopF (cfg : TableConfig) (cols : List String) (flexCols : List Nat) :
    Nat → List Nat → Nat → List Nat × Nat
  | 0, ws, remaining => (ws, remaining)
  | fuel + 1, ws, remaining =>
    if remaining = 0 then (ws, remaining)
    else if growableOf cfg cols flexCols ws = [] then (ws, remaining)
    else if totalFlexOf cfg cols (growableOf cfg cols flexCols ws) = 0 then (ws, remaining)
    else if (growthCycle cfg cols (growableOf cfg cols flexCols ws)
        (totalFlexOf cfg cols (growableOf cfg cols flexCols ws)) ws remaining).2 = 0 then
      ((growthCycle cfg cols (growableOf cfg cols flexCols ws)
        (totalFlexOf cfg cols (growableOf cfg cols flexCols ws)) ws remaining).1, remaining)
    else
      growthLoopF cfg cols flexCols fuel
        (growthCycle cfg cols (growableOf cfg cols flexCols ws)
          (totalFlexOf cfg cols (growableOf cfg cols flexCols ws)) ws remaining).1
        (remaining - (growthCycle cfg cols (growableOf cfg cols flexCols ws)
          (totalFlexOf cfg cols (growableOf cfg cols flexCols ws)) ws remaining).2)

/-- A shrinkable-column record of the shrink phase (`{index, width,
canShrinkBy}`; `width` is only used as the sort key). -/
structure ShrinkEntry where
  index : Nat
  width : Nat
  canShrinkBy : Nat
deriving DecidableEq, Repr

/-- Stable insertion into a width-descending list.  The inserted entry comes
earlier in original order than every element of the list (insertion sort
inserts the head into the sorted tail), so it is placed before the first
element of equal or smaller width: equal widths keep original column order,
matching the stable `Array.prototype.sort` with comparator
`(a, b) => b.width - a.width`. -/
def insertByWidthDesc (e : ShrinkEntry) : List ShrinkEntry → List ShrinkEntry
  | [] => [e]
  | x :: xs => if x.width ≤ e.width then e :: x :: xs else x :: insertByWidthDesc e xs

def sortByWidthDesc : List ShrinkEntry → List ShrinkEntry
  | [] => []
  | x :: xs => insertByWidthDesc x (sortByWidthDesc xs)

/-- The shrinkable list of `distributeWidths`: every column, with its room
above its minimum, filtered to those that can shrink, sorted widest first. -/
def shrinkEntriesOf (cfg : TableConfig) (cols : List String) (ws : List Nat) : List ShrinkEntry :=
  sortByWidthDesc (((List.range ws.length).map
    (fun i => ShrinkEntry.mk i (ws.getD i 0) (ws.getD i 0 - minAt cfg cols i))).filter
      (fun e => decide (0 < e.canShrinkBy)))

/-- Total remaining shrink capacity of a shrinkable list. -/
def canSum (es : List ShrinkEntry) : Nat := (es.map (fun e => e.canShrinkBy)).sum

/-- Invariant tying the shrinkable list to the width vector: every entry
indexes a real column, its capacity never exceeds the room above that
column's minimum, and no two entries target the same column. -/
def shrinkInv (minA : Nat → Nat) (es : List ShrinkEntry) (ws : List Nat) : Prop :=
  (∀ e ∈ es, e.index < ws.length ∧ e.canShrinkBy + minA e.index ≤ ws.getD e.index 0) ∧
  es.Pairwise (fun a b => a.index ≠ b.index)

/-- Prepend a processed entry to the result of the rest of a shrink pass. -/
def consCycle (e : ShrinkEntry) (r : List ShrinkEntry × List Nat × Nat × Bool) :
    List ShrinkEntry × List Nat × Nat × Bool :=
  (e :: r.1, r.2.1, r.2.2.1, r.2.2.2)

/-- One pass of the shrink loop: walk the shrinkable list in order, removing
one unit of width from each column that still has room, stopping early when
the excess is eliminated; returns the updated entries, widths, excess, and
whether anything shrank. -/
def shrinkCycle : List ShrinkEntry → List Nat → Nat → Bool →
    List ShrinkEntry × List Nat × Nat × Bool
  | [], ws, excess, shrunk => ([], ws, excess, shrunk)
  | e :: es, ws, excess, shrunk =>
    if 0 < e.canShrinkBy then
      if excess - 1 = 0 then
        ({ e with canShrinkBy := e.canShrinkBy - 1 } :: es,
         ws.set e.index (ws.getD e.index 0 - 1), excess - 1, true)
      else
        consCycle { e with canShrinkBy := e.canShrinkBy - 1 }
          (shrinkCycle es (ws.set e.index (ws.getD e.index 0 - 1)) (excess - 1) true)
    else
      consCycle e (shrinkCycle es ws excess shrunk)

/-- The shrink loop of `distributeWidths`, with explicit fuel: repeat passes
until the excess is gone or a pass shrinks nothing; each continuing pass
removes at least one unit of excess, so `excess` units of fuel suffice. -/
def shrinkLoopF : Nat → List ShrinkEntry → List Nat → Nat →
    List ShrinkEntry × List Nat × Nat
  | 0, es, ws, excess => (es, ws, excess)
  | fuel + 1, es, ws, excess =>
    if excess = 0 then (es, ws, excess)
    else if es = [] then (es, ws, excess)
    else if (shrinkCycle es ws excess false).2.2.2 then
      shrinkLoopF fuel (shrinkCycle es ws excess false).1
        (shrinkCycle es ws excess false).2.1 (shrinkCycle es ws excess false).2.2.1
    else
      ((shrinkCycle es ws excess false).1, (shrinkCycle es ws excess false).2.1,
       (shrinkCycle es ws excess false).2.2.1)

/-- Embeds `TableFormatter.distributeWidths` of the current revision:
compute the content budget, clamp ideal widths into `[min, max]`, grow
flexible columns iteratively over the remaining space, then shrink
widest-first down to minimums while over budget. -/
def distributeWidths (cfg : TableConfig) (cols : List String)
    (idealWidths : List Nat) (availableWidth : Nat) : List Nat :=
  let n := idealWidths.length
  let contentWidth := contentBudgetOf cfg cols n availableWidth
  let constrained := constrainedOf cfg cols idealWidths
  let flexCols := flexColsOf cfg cols n
  let remaining0 := contentWidth - constrained.sum
  let grown := (growthLoopF cfg cols flexCols remaining0 constrained remaining0).1
  let excess := grown.sum - contentWidth
  if 0 < excess then
    (shrinkLoopF excess (shrinkEntriesOf cfg cols grown) grown excess).2.1
  else grown

/-- Truncation step of `alignAndTruncateText`: text wider than the assigned
width is cut to the longest prefix leaving room for the truncation marker,
which is appended; when the width cannot even hold the marker, the marker
itself is clipped glyph by glyph. -/
def truncToWidth (truncationChar : Str) (text : Str) (width : Nat) : Str :=
  if width < strWidth text then
    if strWidth truncationChar ≤ width then
      takeFit (width - strWidth truncationChar) text ++ truncationChar
    else takeFit width truncationChar
  else text

/-- Embeds `TableFormatter.alignAndTruncateText`: truncate to the assigned
width, then pad with spaces to `width + padding.left + padding.right`
according to the column alignment. -/
def alignAndTruncateText (cfg : TableConfig) (cols : List String) (text : Str)
    (width : Nat) (alignment : Alignment) (columnIndex : Nat) : Str :=
  let padding := padAt cfg cols columnIndex
  let truncationChar := cfg.truncationChar.getD DEFAULT_TRUNCATION_CHAR
  let truncatedText := truncToWidth truncationChar text width
  let textWidth := strWidth truncatedText
  let totalWidth := width + padding.left + padding.right
  match alignment with
  | .right =>
    spaces (totalWidth - textWidth - padding.right) ++ truncatedText ++ spaces padding.right
  | .center =>
    let padLeft := (totalWidth - textWidth) / 2
    spaces padLeft ++ truncatedText ++ spaces (totalWidth - textWidth - padLeft)
  | .left =>
    spaces padding.left ++ truncatedText ++ spaces (totalWidth - textWidth - padding.left)

/-- Theme base style for a row: `alternatingCell` when alternating rows are
enabled and the row index is odd, else `cell`. -/
def baseRowStyleOf (cfg : TableConfig) (rowIndex : Int) : Style :=
  if cfg.alternatingRows && !(rowIndex % 2 == 0) then cfg.theme.alternatingCell
  else cfg.theme.cell

/-- `this.config.rowStyle?.(originalRow) ?? {}`. -/
def condRowStyleOf (cfg : TableConfig) (row : List (String × Cell)) : Style :=
  match cfg.rowStyle with
  | some f => (f row).getD {}
  | none => {}

/-- `columnConfig?.style ?? {}`. -/
def staticColStyleOf (cfg : TableConfig) (cols : List String) (i : Nat) : Style :=
  ((colConfigAt cfg cols i).bind (fun c => c.style)).getD {}

/-- `originalRow[colName]` — the raw, unformatted value consulted by the
per-cell conditional style (an absent key reads as null). -/
def cellValueAt (cols : List String) (row : List (String × Cell)) (i : Nat) : Cell :=
  match cols.get? i with
  | some name => (List.lookup name row).getD Cell.null
  | none => Cell.null

/-- `columnConfig?.cellStyle?.(originalValue) ?? {}`. -/
def condCellStyleOf (cfg : TableConfig) (cols : List String)
    (row : List (String × Cell)) (i : Nat) : Style :=
  match (colConfigAt cfg cols i).bind (fun c => c.cellStyle) with
  | some f => (f (cellValueAt cols row i)).getD {}
  | none => {}

/-- The style-precedence computation of `renderRow`: base (cell or
alternating), overridden by the row conditional style, the static column
style, and the per-cell conditional style, in that order, by object spread. -/
def cellEffectiveStyle (cfg : TableConfig) (cols : List String)
    (row : List (String × Cell)) (rowIndex : Int) (i : Nat) : Style :=
  Style.merge
    (Style.merge
      (Style.merge (baseRowStyleOf cfg rowIndex) (condRowStyleOf cfg row))
      (staticColStyleOf cfg cols i))
    (condCellStyleOf cfg cols row i)

/-- One data cell of `renderRow`: align and truncate the formatted text, then
apply the effective style. -/
def renderDataCell (cfg : TableConfig) (cols : List String)
    (row : List (String × Cell)) (rowIndex : Int) (i : Nat)
    (cell : Str) (width : Nat) : Str :=
  applyStyle (alignAndTruncateText cfg cols cell width (alignmentAt cfg cols i) i)
    (cellEffectiveStyle cfg cols row rowIndex i)

/-- Embeds `TableFormatter.renderRow`. -/
def renderRow (cfg : TableConfig) (cols : List String) (rowCells : List Str)
    (originalRow : List (String × Cell)) (widths : List Nat) (rowIndex : Int) : Str :=
  let cells := (List.range rowCells.length).map
    (fun i => renderDataCell cfg cols originalRow rowIndex i
      (rowCells.getD i []) (widths.getD i 0))
  cfg.border.vertical ++ joinSep cfg.border.cellSeparator cells ++ cfg.border.vertical

/-- Embeds `TableFormatter.renderHeader`: headers joined by the vertical
glyph; a header cell that is pure padding is left unstyled. -/
def renderHeader (cfg : TableConfig) (cols : List String) (headers : List Str)
    (widths : List Nat) : Str :=
  let cells := (List.range headers.length).map (fun i =>
    let style := Style.merge cfg.theme.header
      (((colConfigAt cfg cols i).bind (fun c => c.headerStyle)).getD {})
    let aligned := alignAndTruncateText cfg cols (headers.getD i [])
      (widths.getD i 0) (alignmentAt cfg cols i) i
    if isBlank aligned then aligned else applyStyle aligned style)
  cfg.border.vertical ++ joinSep cfg.border.vertical cells ++ cfg.border.vertical

/-- Embeds `TableFormatter.renderSeparator`. -/
def renderSeparator (cfg : TableConfig) (cols : List String) (widths : List Nat)
    (l m r line : Str) : Str :=
  let parts := (List.range widths.length).map (fun i =>
    repeatStr line (widths.getD i 0 + (padAt cfg cols i).left + (padAt cfg cols i).right))
  l ++ joinSep m parts ++ r

/-- `headerLabels`: the column's configured header label, else its key. -/
def headerLabelsOf (cfg : TableConfig) (cols : List String) : List Str :=
  cols.map (fun name => ((cfg.columns name).bind (fun c => c.header)).getD (ofString name))

/-- Display text of one cell in the formatting pass: the column formatter if
present, else canonical serialisation of structured values, else the
stringified scalar with null as empty text. -/
def formatCell (cfg : TableConfig) (cols : List String) (colIdx : Nat)
    (cell : Cell) (rowIndex : Int) : Str :=
  match (colConfigAt cfg cols colIdx).bind (fun c => c.formatter) with
  | some f => f cell rowIndex
  | none =>
    match cell with
    | .obj kvs => jsonOfObj kvs
    | .str s => s
    | .num n => intToStr n
    | .bool b => ofString (if b then "true" else "false")
    | .null => []

def formatRow (cfg : TableConfig) (cols : List String) (row : List Cell)
    (rowIndex : Int) : List Str :=
  (List.range row.length).map (fun colIdx => formatCell cfg cols colIdx (row.getD colIdx Cell.null) rowIndex)

/-- `startRow = Math.max(0, rowOffset)`. -/
def startRowOf (cfg : TableConfig) : Int := max 0 (cfg.rowOffset.getD 0)

/-- `endRow = Math.min(totalRows, startRow + rowLimit)`. -/
def endRowOf (cfg : TableConfig) (totalRows : Int) : Int :=
  min totalRows (startRowOf cfg + cfg.rowLimit.getD totalRows)

/-- Integers of `[a, b)`, in order. -/
def intRange (a b : Int) : List Int :=
  (List.range (b - a).toNat).map (fun (k : Nat) => a + (k : Int))

/-- The row indices `render` iterates over: `for (let i = startRow; i < endRow; i++)`. -/
def windowIdx (cfg : TableConfig) (totalRows : Int) : List Int :=
  intRange (startRowOf cfg) (endRowOf cfg totalRows)

/-- Sequential fallible map, embedding a JS loop over fallible row fetches. -/
def exceptMapM (f : α → Except ε β) : List α → Except ε (List β)
  | [] => .ok []
  | x :: xs =>
    match f x with
    | .error e => .error e
    | .ok y =>
      match exceptMapM f xs with
      | .error e => .error e
      | .ok ys => .ok (y :: ys)

/-- The formatting pass of `render`: fetch each windowed row in increasing
order and format its cells. -/
def formattedWindowE (src : JSONDataSource) (cfg : TableConfig) :
    Except String (List (List Str)) :=
  exceptMapM
    (fun i => match src.getArrayRow i with
      | .error e => .error e
      | .ok row => .ok (formatRow cfg src.columnNames row i))
    (windowIdx cfg (src.rowCount : Int))

/-- The original (unformatted) rows consulted for conditional styling, one
per windowed row, fetched by `getObjectRow` in the rendering pass. -/
def originalsE (src : JSONDataSource) (cfg : TableConfig) :
    Except String (List (List (String × Cell))) :=
  exceptMapM (fun i => src.getObjectRow i) (windowIdx cfg (src.rowCount : Int))

/-- The data-row lines: `formattedDataWindow.forEach((row, i) => ...)`,
pairing each formatted row with its original row and absolute index. -/
def renderDataRows (cfg : TableConfig) (cols : List String) (widths : List Nat) :
    List (List Str) → List (List (String × Cell)) → Int → List Str
  | [], _, _ => []
  | row :: rows, origs, idx =>
    renderRow cfg cols row (origs.headD []) widths idx ::
      renderDataRows cfg cols widths rows origs.tail (idx + 1)

/-- `content.padEnd(totalInnerWidth, " ")` (JavaScript pads by string length;
in the token model, by token count). -/
def padEndTok (s : Str) (n : Nat) : Str := s ++ spaces (n - s.length)

/-- The `totalInnerWidth` computation of `render`. -/
def totalInnerWidthOf (cfg : TableConfig) (cols : List String) (finalWidths : List Nat) : Nat :=
  finalWidths.sum + totalPaddingOf cfg cols finalWidths.length +
    (if 1 < finalWidths.length then finalWidths.length - 1 else 0)

/-- The `FooterInfo` record `render` passes to the footer callback. -/
def footerInfoOf (cfg : TableConfig) (totalRows : Int) : FooterInfo :=
  let rowLimit := cfg.rowLimit.getD totalRows
  { totalRows := totalRows
    displayedRows := endRowOf cfg totalRows - startRowOf cfg
    isTruncated := decide (rowLimit < totalRows)
    startRow := startRowOf cfg
    endRow := endRowOf cfg totalRows }

/-- The pure assembly of the output lines of `render`, after both fallible
row passes have succeeded. -/
def assembleLines (cfg : TableConfig) (cols : List String) (totalRows : Int)
    (availableWidth : Nat) (fw : List (List Str))
    (originals : List (List (String × Cell))) : List Str :=
  let headerLabels := headerLabelsOf cfg cols
  let idealWidths := calculateColumnWidths headerLabels fw
  let finalWidths := distributeWidths cfg cols idealWidths availableWidth
  let totalInnerWidth := totalInnerWidthOf cfg cols finalWidths
  let top := renderSeparator cfg cols finalWidths cfg.border.topLeft
    cfg.border.topSeparator cfg.border.topRight cfg.border.horizontal
  let head := renderHeader cfg cols headerLabels finalWidths
  let mid := renderSeparator cfg cols finalWidths cfg.border.headerLeft
    cfg.border.middleSeparator cfg.border.headerRight cfg.border.horizontal
  let dataRows :=
    if fw = [] then
      [renderRow cfg cols (cols.map (fun _ => []))
        (cols.map (fun c => (c, Cell.null))) finalWidths 0]
    else renderDataRows cfg cols finalWidths fw originals (startRowOf cfg)
  let tail :=
    match cfg.footer with
    | some f =>
      let sepF := renderSeparator cfg cols finalWidths cfg.border.headerLeft
        cfg.border.bottomSeparator cfg.border.headerRight cfg.border.horizontal
      let content := sp :: f (footerInfoOf cfg totalRows)
      let paddedFooter := applyStyle (padEndTok content totalInnerWidth) cfg.theme.footer
      let frow := cfg.border.vertical ++ paddedFooter ++ cfg.border.vertical
      let solid := cfg.border.bottomLeft ++ repeatStr cfg.border.horizontal totalInnerWidth ++
        cfg.border.bottomRight
      [sepF, frow, solid]
    | none =>
      [renderSeparator cfg cols finalWidths cfg.border.bottomLeft
        cfg.border.bottomSeparator cfg.border.bottomRight cfg.border.horizontal]
  [top, head, mid] ++ dataRows ++ tail

/-- Embeds `TableFormatter.render` of the current revision, producing the
list of output lines (`output` in the source, joined by newlines at the end).
`termCols` models `process.stdout.columns`. -/
def renderLines (src : JSONDataSource) (cfg : TableConfig) (termCols : Option Nat) :
    Except String (List Str) :=
  let availableWidth := cfg.maxWidth.getD (termCols.getD 80)
  let cols := src.columnNames
  if cols = [] then .ok [applyStyle (ofString ("(No data)")) cfg.theme.cell]
  else
    match formattedWindowE src cfg with
    | .error e => .error e
    | .ok fw =>
      match originalsE src cfg with
      | .error e => .error e
      | .ok originals =>
        .ok (assembleLines cfg cols (src.rowCount : Int) availableWidth fw originals)

/-- The lines of a successful render, the empty list on failure. -/
def linesOf (e : Except String (List Str)) : List Str :=
  match e with
  | .ok ls => ls
  | .error _ => []

/-- `output.join("\n")` over a successful render. -/
def renderText (src : JSONDataSource) (cfg : TableConfig) (termCols : Option Nat) : Str :=
  joinSep [Ch.glyph '\n' 1] (linesOf (renderLines src cfg termCols))

/-- All configured border glyphs occupy exactly one terminal column (true of
the built-in single- and double-line sets). -/
def borderOk (b : BorderChars) : Prop :=
  strWidth b.horizontal = 1 ∧ strWidth b.vertical = 1 ∧ strWidth b.topLeft = 1 ∧
  strWidth b.topRight = 1 ∧ strWidth b.bottomLeft = 1 ∧ strWidth b.bottomRight = 1 ∧
  strWidth b.headerLeft = 1 ∧ strWidth b.headerRight = 1 ∧ strWidth b.topSeparator = 1 ∧
  strWidth b.middleSeparator = 1 ∧ strWidth b.bottomSeparator = 1 ∧
  strWidth b.cellSeparator = 1

/-- Sum of the effective column minimum widths. -/
def minTotalOf (cfg : TableConfig) (cols : List String) (n : Nat) : Nat :=
  ((List.range n).map (fun i => minAt cfg cols i)).sum

/-- The configured footer (if any) produces, for the info record of this
render, plain width-1 text that fits the table's inner width. -/
def footerOk (cfg : TableConfig) (cols : List String) (totalRows : Int)
    (finalWidths : List Nat) : Prop :=
  match cfg.footer with
  | none => True
  | some f =>
    plainStr (f (footerInfoOf cfg totalRows)) = true ∧
    (f (footerInfoOf cfg totalRows)).length + 1 ≤ totalInnerWidthOf cfg cols finalWidths

/-! Concrete sources and configurations used by the closed-instance theorems. -/

/-- A run of `n` copies of the width-1 glyph `c`. -/
def glyphs (c : Char) (n : Nat) : Str := List.replicate n (Ch.glyph c 1)

/-- One-column, one-row source with a single short cell. -/
def exSrcShort : JSONDataSource := ⟨[[("a", Cell.str (glyphs 'x' 1))]]⟩

/-- Budget 40 with tiny content: satisfiable and strictly under budget. -/
def exCfgBudget40 : TableConfig := { maxWidth := some 40 }

/-- One-column, one-row source with a ten-glyph cell. -/
def exSrcLong : JSONDataSource := ⟨[[("a", Cell.str (glyphs 'x' 10))]]⟩

/-- Budget 10: satisfiable and over budget for `exSrcLong`. -/
def exCfgBudget10 : TableConfig := { maxWidth := some 10 }

/-- Column `a` configured with `minWidth` 9 exceeding `maxWidth` 4. -/
def exCfgMinOverMax : TableConfig :=
  { columns := fun n => if n == "a" then some { minWidth := some 9, maxWidth := some 4 } else none }

/-- Column `a` configured with `minWidth` 0; column `b` with `minWidth` 10
exceeding `maxWidth` 5. -/
def exCfgEdgeMin : TableConfig :=
  { columns := fun n =>
      if n == "a" then some { minWidth := some 0 }
      else if n == "b" then some { minWidth := some 10, maxWidth := some 5 }
      else none }

/-- Two-row, one-column source whose rows read `aa` and `bb`. -/
def exSrcTwoRows : JSONDataSource :=
  ⟨[[("x", Cell.str (glyphs 'a' 2))], [("x", Cell.str (glyphs 'b' 2))]]⟩

/-- `offset = 1`, `limit = 1`. -/
def exCfgPage : TableConfig := { rowOffset := some 1, rowLimit := some 1 }

/-- The all-defaults configuration (`new TableFormatter(source)`). -/
def exCfgEmpty : TableConfig := {}

/-! ### Basic width and list lemmas -/

theorem strWidth_append (a b : Str) : strWidth (a ++ b) = strWidth a + strWidth b := by
  simp [strWidth]

theorem strWidth_spaces (n : Nat) : strWidth (spaces n) = n := by
  induction n with
  | zero => rfl
  | succ k ih =>
    simp only [spaces, List.replicate_succ, strWidth, List.map_cons, List.sum_cons] at ih ⊢
    simp only [sp, chWidth] at ih ⊢
    omega

theorem strWidth_glyphs (c : Char) (n : Nat) : strWidth (glyphs c n) = n := by
  induction n with
  | zero => rfl
  | succ k ih =>
    simp only [glyphs, List.replicate_succ, strWidth, List.map_cons, List.sum_cons,
      chWidth] at ih ⊢
    omega

theorem strWidth_repeatStr (s : Str) (n : Nat) :
    strWidth (repeatStr s n) = n * strWidth s := by
  induction n with
  | zero => simp [repeatStr, strWidth]
  | succ k ih =>
    simp only [repeatStr, List.replicate_succ, List.flatten_cons] at ih ⊢
    rw [strWidth_append, ih]
    ring

theorem strWidth_styleWrap (ops : List StyleOp) (t : Str) :
    strWidth (styleWrap ops t) = strWidth t := by
  simp only [styleWrap, strWidth_append]
  have h1 : strWidth (ops.map Ch.escOpen) = 0 := by
    unfold strWidth
    apply List.sum_eq_zero
    intro x hx
    simp only [List.map_map, List.mem_map] at hx
    obtain ⟨op, _, rfl⟩ := hx
    rfl
  have h2 : strWidth (ops.reverse.map Ch.escClose) = 0 := by
    unfold strWidth
    apply List.sum_eq_zero
    intro x hx
    simp only [List.map_map, List.mem_map, List.mem_reverse] at hx
    obtain ⟨op, _, rfl⟩ := hx
    rfl
  omega

/-- Styling never changes display width: pre-styled text is returned as is,
and otherwise only zero-width escape markers are added. -/
theorem strWidth_applyStyle (t : Str) (s : Style) :
    strWidth (applyStyle t s) = strWidth t := by
  unfold applyStyle
  split
  · rfl
  · exact strWidth_styleWrap _ _

theorem strWidth_joinSep (sep : Str) (parts : List Str) :
    strWidth (joinSep sep parts) =
      (parts.map strWidth).sum + (parts.length - 1) * strWidth sep := by
  induction parts with
  | nil => simp [joinSep, strWidth]
  | cons x xs ih =>
    cases xs with
    | nil => simp [joinSep, strWidth]
    | cons y ys =>
      simp only [joinSep, strWidth_append, ih, List.map_cons, List.sum_cons, List.length_cons,
        Nat.add_sub_cancel]
      ring

theorem takeFit_width_le (budget : Nat) (s : Str) : strWidth (takeFit budget s) ≤ budget := by
  induction s generalizing budget with
  | nil => simp [takeFit, strWidth]
  | cons c cs ih =>
    simp only [takeFit]
    split
    · have := ih (budget - chWidth c)
      simp only [strWidth, List.map_cons, List.sum_cons] at *
      omega
    · simp [strWidth]

theorem takeFit_append (budget : Nat) (s : Str) : ∃ r, takeFit budget s ++ r = s := by
  induction s generalizing budget with
  | nil => exact ⟨[], rfl⟩
  | cons c cs ih =>
    simp only [takeFit]
    split
    · obtain ⟨r, hr⟩ := ih (budget - chWidth c)
      exact ⟨r, by simp [hr]⟩
    · exact ⟨c :: cs, rfl⟩

theorem truncToWidth_width_le (tc t : Str) (w : Nat) :
    strWidth (truncToWidth tc t w) ≤ w := by
  unfold truncToWidth
  split
  · split
    · rw [strWidth_append]
      have := takeFit_width_le (w - strWidth tc) t
      omega
    · exact takeFit_width_le w tc
  · omega

theorem getD_set (l : List Nat) (i v j : Nat) :
    (l.set i v).getD j 0 = if i = j ∧ i < l.length then v else l.getD j 0 := by
  induction l generalizing i j with
  | nil => simp [List.set]
  | cons x xs ih =>
    cases i with
    | zero =>
      cases j with
      | zero => simp
      | succ jj => simp [List.set]
    | succ ii =>
      cases j with
      | zero => simp [List.set]
      | succ jj =>
        simp only [List.set, List.getD_cons_succ, List.length_cons, ih]
        have hiff : (ii + 1 = jj + 1 ∧ ii + 1 < xs.length + 1) ↔ (ii = jj ∧ ii < xs.length) := by
          omega
        by_cases hc : ii = jj ∧ ii < xs.length
        · rw [if_pos hc, if_pos (hiff.mpr hc)]
        · rw [if_neg hc, if_neg (fun h => hc (hiff.mp h))]

theorem sum_set_exchange (l : List Nat) (i v : Nat) (hi : i < l.length) :
    (l.set i v).sum + l.getD i 0 = l.sum + v := by
  induction l generalizing i with
  | nil => simp at hi
  | cons x xs ih =>
    cases i with
    | zero => simp [List.set]; omega
    | succ ii =>
      simp only [List.set, List.sum_cons, List.getD_cons_succ]
      have := ih ii (by simpa using hi)
      omega

theorem getD_range_map (f : Nat → Nat) (n i : Nat) (hi : i < n) :
    ((List.range n).map f).getD i 0 = f i := by
  have h1 : i < ((List.range n).map f).length := by simpa using hi
  rw [List.getD_eq_getElem _ _ h1]
  simp

theorem length_range_map (f : Nat → α) (n : Nat) : ((List.range n).map f).length = n := by
  simp

theorem sum_range_split (f g : Nat → Nat) (n : Nat) :
    ((List.range n).map (fun i => f i + g i)).sum =
      ((List.range n).map f).sum + ((List.range n).map g).sum := by
  induction n with
  | zero => simp
  | succ k ih => simp [List.range_succ, ih]; omega

theorem map_range_getD (l : List Nat) :
    (List.range l.length).map (fun i => l.getD i 0) = l := by
  apply List.ext_getElem
  · simp
  · intro i h1 h2
    simp only [List.getElem_map, List.getElem_range]
    exact List.getD_eq_getElem l 0 h2

theorem sum_range_getD (l : List Nat) :
    ((List.range l.length).map (fun i => l.getD i 0)).sum = l.sum := by
  rw [map_range_getD]

/-! ### Truncation and alignment lemmas -/

theorem strWidth_align (cfg : TableConfig) (cols : List String) (t : Str) (w : Nat)
    (a : Alignment) (i : Nat) :
    strWidth (alignAndTruncateText cfg cols t w a i) =
      w + (padAt cfg cols i).left + (padAt cfg cols i).right := by
  have h := truncToWidth_width_le (cfg.truncationChar.getD DEFAULT_TRUNCATION_CHAR) t w
  cases a <;>
    simp only [alignAndTruncateText, strWidth_append, strWidth_spaces] <;>
    omega

theorem truncToWidth_marker (tc t : Str) (w : Nat) (hlt : w < strWidth t)
    (hm : strWidth tc ≤ w) : ∃ p, truncToWidth tc t w = p ++ tc := by
  refine ⟨takeFit (w - strWidth tc) t, ?_⟩
  unfold truncToWidth
  rw [if_pos hlt, if_pos hm]

theorem truncToWidth_clip (tc t : Str) (w : Nat) (hlt : w < strWidth t)
    (hm : ¬ strWidth tc ≤ w) : ∃ r, truncToWidth tc t w ++ r = tc := by
  unfold truncToWidth
  rw [if_pos hlt, if_neg hm]
  exact takeFit_append w tc

/-- Text that already fits is aligned unchanged, surrounded by space fill. -/
theorem align_fit (cfg : TableConfig) (cols : List String) (t : Str) (w : Nat)
    (a : Alignment) (i : Nat) (hfit : strWidth t ≤ w) :
    ∃ x y, alignAndTruncateText cfg cols t w a i = spaces x ++ t ++ spaces y := by
  have hnt : truncToWidth (cfg.truncationChar.getD DEFAULT_TRUNCATION_CHAR) t w = t := by
    unfold truncToWidth
    rw [if_neg (by omega)]
  cases a <;>
    simp only [alignAndTruncateText, hnt] <;>
    exact ⟨_, _, rfl⟩

/-! ### Growth-phase lemmas -/

theorem growthStep_length (cfg : TableConfig) (cols : List String) (tf space : Nat)
    (acc : List Nat × Nat) (i : Nat) :
    (growthStep cfg cols tf space acc i).1.length = acc.1.length := by
  unfold growthStep
  split
  · simp
  · rfl

theorem growthStep_lower (cfg : TableConfig) (cols : List String) (tf space : Nat)
    (acc : List Nat × Nat) (i j : Nat) :
    acc.1.getD j 0 ≤ (growthStep cfg cols tf space acc i).1.getD j 0 := by
  unfold growthStep
  split
  · simp only [getD_set]
    split
    · rename_i hc
      obtain ⟨rfl, hlen⟩ := hc
      omega
    · exact Nat.le_refl _
  · exact Nat.le_refl _

theorem growthAmt_upper (cfg : TableConfig) (cols : List String) (tf space : Nat)
    (ws : List Nat) (i m : Nat) (hm : maxAt cfg cols i = some m) :
    growthAmt cfg cols tf space ws i ≤ m - ws.getD i 0 := by
  simp only [growthAmt, hm]
  exact Nat.min_le_right _ _

theorem growthStep_upper (cfg : TableConfig) (cols : List String) (tf space : Nat)
    (acc : List Nat × Nat) (i j m : Nat)
    (hm : maxAt cfg cols j = some m) (hj : acc.1.getD j 0 ≤ m) :
    (growthStep cfg cols tf space acc i).1.getD j 0 ≤ m := by
  unfold growthStep
  split
  · simp only [getD_set]
    split
    · rename_i hgrow hc
      obtain ⟨rfl, hlen⟩ := hc
      have hamt := growthAmt_upper cfg cols tf space acc.1 i m hm
      omega
    · exact hj
  · exact hj

theorem growthStep_dist_mono (cfg : TableConfig) (cols : List String) (tf space : Nat)
    (acc : List Nat × Nat) (i : Nat) :
    acc.2 ≤ (growthStep cfg cols tf space acc i).2 := by
  unfold growthStep
  split
  · omega
  · exact Nat.le_refl _

theorem growthCycle_foldl_length (cfg : TableConfig) (cols : List String) (tf space : Nat)
    (g : List Nat) (acc : List Nat × Nat) :
    (g.foldl (growthStep cfg cols tf space) acc).1.length = acc.1.length := by
  induction g generalizing acc with
  | nil => rfl
  | cons i g' ih =>
    rw [List.foldl_cons, ih]
    exact growthStep_length cfg cols tf space acc i

theorem growthCycle_foldl_lower (cfg : TableConfig) (cols : List String) (tf space : Nat)
    (g : List Nat) (acc : List Nat × Nat) (j : Nat) :
    acc.1.getD j 0 ≤ (g.foldl (growthStep cfg cols tf space) acc).1.getD j 0 := by
  induction g generalizing acc with
  | nil => exact Nat.le_refl _
  | cons i g' ih =>
    rw [List.foldl_cons]
    exact Nat.le_trans (growthStep_lower cfg cols tf space acc i j) (ih _)

theorem growthCycle_foldl_upper (cfg : TableConfig) (cols : List String) (tf space : Nat)
    (g : List Nat) (acc : List Nat × Nat) (j m : Nat)
    (hm : maxAt cfg cols j = some m) (hj : acc.1.getD j 0 ≤ m) :
    (g.foldl (growthStep cfg cols tf space) acc).1.getD j 0 ≤ m := by
  induction g generalizing acc with
  | nil => exact hj
  | cons i g' ih =>
    rw [List.foldl_cons]
    exact ih _ (growthStep_upper cfg cols tf space acc i j m hm hj)

theorem growthCycle_foldl_dist_mono (cfg : TableConfig) (cols : List String) (tf space : Nat)
    (g : List Nat) (acc : List Nat × Nat) :
    acc.2 ≤ (g.foldl (growthStep cfg cols tf space) acc).2 := by
  induction g generalizing acc with
  | nil => exact Nat.le_refl _
  | cons i g' ih =>
    rw [List.foldl_cons]
    exact Nat.le_trans (growthStep_dist_mono cfg cols tf space acc i) (ih _)

theorem growthCycle_foldl_zero (cfg : TableConfig) (cols : List String) (tf space : Nat)
    (g : List Nat) (acc : List Nat × Nat)
    (h : (g.foldl (growthStep cfg cols tf space) acc).2 = acc.2) :
    (g.foldl (growthStep cfg cols tf space) acc).1 = acc.1 := by
  induction g generalizing acc with
  | nil => rfl
  | cons i g' ih =>
    rw [List.foldl_cons] at h ⊢
    have hmono := growthCycle_foldl_dist_mono cfg cols tf space g'
      (growthStep cfg cols tf space acc i)
    have hstep := growthStep_dist_mono cfg cols tf space acc i
    have hs : (growthStep cfg cols tf space acc i).2 = acc.2 := by omega
    have h1 : growthStep cfg cols tf space acc i = acc := by
      unfold growthStep at hs ⊢
      by_cases hcond : 0 < growthAmt cfg cols tf space acc.1 i
      · rw [if_pos hcond] at hs
        simp only at hs
        exact absurd hs (by omega)
      · rw [if_neg hcond]
    rw [h1] at h ⊢
    exact ih acc h

/-- If a growth iteration distributed nothing, no width changed. -/
theorem growthCycle_zero (cfg : TableConfig) (cols : List String) (g : List Nat)
    (tf : Nat) (ws : List Nat) (space : Nat)
    (h : (growthCycle cfg cols g tf ws space).2 = 0) :
    (growthCycle cfg cols g tf ws space).1 = ws := by
  exact growthCycle_foldl_zero cfg cols tf space g (ws, 0) h

theorem growthCycle_length (cfg : TableConfig) (cols : List String) (g : List Nat)
    (tf : Nat) (ws : List Nat) (space : Nat) :
    (growthCycle cfg cols g tf ws space).1.length = ws.length := by
  unfold growthCycle
  exact growthCycle_foldl_length cfg cols tf space g (ws, 0)

theorem growthCycle_lower (cfg : TableConfig) (cols : List String) (g : List Nat)
    (tf : Nat) (ws : List Nat) (space : Nat) (j : Nat) :
    ws.getD j 0 ≤ (growthCycle cfg cols g tf ws space).1.getD j 0 := by
  unfold growthCycle
  exact growthCycle_foldl_lower cfg cols tf space g (ws, 0) j

theorem growthCycle_upper (cfg : TableConfig) (cols : List String) (g : List Nat)
    (tf : Nat) (ws : List Nat) (space : Nat) (j m : Nat)
    (hm : maxAt cfg cols j = some m) (hj : ws.getD j 0 ≤ m) :
    (growthCycle cfg cols g tf ws space).1.getD j 0 ≤ m := by
  unfold growthCycle
  exact growthCycle_foldl_upper cfg cols tf space g (ws, 0) j m hm hj

theorem growthLoopF_length (cfg : TableConfig) (cols : List String) (flexCols : List Nat)
    (fuel : Nat) (ws : List Nat) (rem : Nat) :
    (growthLoopF cfg cols flexCols fuel ws rem).1.length = ws.length := by
  induction fuel generalizing ws rem with
  | zero => rfl
  | succ f ih =>
    unfold growthLoopF
    split
    · rfl
    split
    · rfl
    split
    · rfl
    split
    · exact growthCycle_length cfg cols _ _ _ _
    · rw [ih]
      exact growthCycle_length cfg cols _ _ _ _

theorem growthLoopF_lower (cfg : TableConfig) (cols : List String) (flexCols : List Nat)
    (fuel : Nat) (ws : List Nat) (rem : Nat) (j : Nat) :
    ws.getD j 0 ≤ (growthLoopF cfg cols flexCols fuel ws rem).1.getD j 0 := by
  induction fuel generalizing ws rem with
  | zero => exact Nat.le_refl _
  | succ f ih =>
    unfold growthLoopF
    split
    · exact Nat.le_refl _
    split
    · exact Nat.le_refl _
    split
    · exact Nat.le_refl _
    split
    · exact growthCycle_lower cfg cols _ _ _ _ _
    · exact Nat.le_trans (growthCycle_lower cfg cols _ _ ws _ j) (ih _ _)

theorem growthLoopF_upper (cfg : TableConfig) (cols : List String) (flexCols : List Nat)
    (fuel : Nat) (ws : List Nat) (rem : Nat) (j m : Nat)
    (hm : maxAt cfg cols j = some m) (hj : ws.getD j 0 ≤ m) :
    (growthLoopF cfg cols flexCols fuel ws rem).1.getD j 0 ≤ m := by
  induction fuel generalizing ws rem with
  | zero => exact hj
  | succ f ih =>
    unfold growthLoopF
    split
    · exact hj
    split
    · exact hj
    split
    · exact hj
    split
    · exact growthCycle_upper cfg cols _ _ _ _ _ _ hm hj
    · exact ih _ _ (growthCycle_upper cfg cols _ _ ws _ j m hm hj)

/-- Fuel-independence of the growth loop above `rem` units: the loop always
exits through one of its own break conditions within `rem` iterations, since
each continuing iteration distributes at least one unit of the remaining
space.  This is the termination guarantee of the growth phase. -/
theorem growthLoopF_stable (cfg : TableConfig) (cols : List String) (flexCols : List Nat)
    (rem : Nat) (ws : List Nat) (f1 f2 : Nat) (h1 : rem ≤ f1) (h2 : rem ≤ f2) :
    growthLoopF cfg cols flexCols f1 ws rem = growthLoopF cfg cols flexCols f2 ws rem := by
  induction rem using Nat.strong_induction_on generalizing ws f1 f2 with
  | _ rem ih =>
    by_cases hz : rem = 0
    · subst hz
      cases f1 <;> cases f2 <;> simp [growthLoopF]
    · obtain ⟨f1', rfl⟩ : ∃ k, f1 = k + 1 := ⟨f1 - 1, by omega⟩
      obtain ⟨f2', rfl⟩ : ∃ k, f2 = k + 1 := ⟨f2 - 1, by omega⟩
      unfold growthLoopF
      rw [if_neg hz, if_neg hz]
      split
      · rfl
      split
      · rfl
      split
      · rfl
      · rename_i hne
        apply ih
        · omega
        · omega
        · omega

/-! ### Shrink-phase lemmas -/

theorem shrinkCycle_indices (es : List ShrinkEntry) (ws : List Nat) (ex : Nat) (sh : Bool) :
    (shrinkCycle es ws ex sh).1.map (fun e => e.index) = es.map (fun e => e.index) := by
  induction es generalizing ws ex sh with
  | nil => rfl
  | cons e es ih =>
    unfold shrinkCycle
    split
    · split
      · simp
      · simp only [consCycle, List.map_cons]
        rw [ih]
    · simp only [consCycle, List.map_cons]
      rw [ih]

theorem shrinkCycle_ws_length (es : List ShrinkEntry) (ws : List Nat) (ex : Nat) (sh : Bool) :
    (shrinkCycle es ws ex sh).2.1.length = ws.length := by
  induction es generalizing ws ex sh with
  | nil => rfl
  | cons e es ih =>
    unfold shrinkCycle
    split
    · split
      · simp
      · simp only [consCycle]
        rw [ih]
        simp
    · simp only [consCycle]
      exact ih ws ex sh

theorem shrinkCycle_ws_le (es : List ShrinkEntry) (ws : List Nat) (ex : Nat) (sh : Bool)
    (j : Nat) : (shrinkCycle es ws ex sh).2.1.getD j 0 ≤ ws.getD j 0 := by
  induction es generalizing ws ex sh with
  | nil => exact Nat.le_refl _
  | cons e es ih =>
    unfold shrinkCycle
    split
    · split
      · simp only
        rw [getD_set]
        split
        · rename_i hc
          obtain ⟨h1, h2⟩ := hc
          subst h1
          omega
        · exact Nat.le_refl _
      · simp only [consCycle]
        refine Nat.le_trans (ih _ _ _) ?_
        rw [getD_set]
        split
        · rename_i hc
          obtain ⟨h1, h2⟩ := hc
          subst h1
          omega
        · exact Nat.le_refl _
    · simp only [consCycle]
      exact ih ws ex sh

theorem shrinkCycle_frame (es : List ShrinkEntry) (ws : List Nat) (ex : Nat) (sh : Bool)
    (j : Nat) (hj : ∀ e ∈ es, e.index ≠ j) :
    (shrinkCycle es ws ex sh).2.1.getD j 0 = ws.getD j 0 := by
  induction es generalizing ws ex sh with
  | nil => rfl
  | cons e es ih =>
    have hej : e.index ≠ j := hj e (List.mem_cons_self e es)
    have hj2 : ∀ x ∈ es, x.index ≠ j := fun x hx => hj x (List.mem_cons_of_mem e hx)
    unfold shrinkCycle
    split
    · split
      · simp only
        rw [getD_set, if_neg (fun hc => hej hc.1)]
      · simp only [consCycle]
        rw [ih _ _ _ hj2, getD_set, if_neg (fun hc => hej hc.1)]
    · simp only [consCycle]
      exact ih ws ex sh hj2

/-- Entries with the same index multiset see the same frame condition. -/
theorem index_ne_of_map_eq (l1 l2 : List ShrinkEntry)
    (h : l1.map (fun e => e.index) = l2.map (fun e => e.index)) (j : Nat)
    (hj : ∀ e ∈ l2, e.index ≠ j) : ∀ e ∈ l1, e.index ≠ j := by
  intro e he
  have h1 : e.index ∈ l1.map (fun e => e.index) := List.mem_map_of_mem _ he
  rw [h] at h1
  obtain ⟨b, hb, hbe⟩ := List.mem_map.mp h1
  rw [← hbe]
  exact hj b hb

/-- Tail of a shrink invariant after decrementing the head's column. -/
theorem shrinkInv_tail_set (minA : Nat → Nat) (e : ShrinkEntry) (es : List ShrinkEntry)
    (ws : List Nat) (hinv : shrinkInv minA (e :: es) ws) :
    shrinkInv minA es (ws.set e.index (ws.getD e.index 0 - 1)) := by
  obtain ⟨hb, hp⟩ := hinv
  rw [List.pairwise_cons] at hp
  constructor
  · intro x hx
    have hx0 := hb x (List.mem_cons_of_mem e hx)
    have hne : e.index ≠ x.index := hp.1 x hx
    constructor
    · simpa using hx0.1
    · rw [getD_set, if_neg (fun hc => hne hc.1)]
      exact hx0.2
  · exact hp.2

theorem shrinkCycle_inv (minA : Nat → Nat) (es : List ShrinkEntry) (ws : List Nat)
    (ex : Nat) (sh : Bool) (hinv : shrinkInv minA es ws) :
    shrinkInv minA (shrinkCycle es ws ex sh).1 (shrinkCycle es ws ex sh).2.1 := by
  induction es generalizing ws ex sh with
  | nil => exact hinv
  | cons e es ih =>
    obtain ⟨hb, hp⟩ := hinv
    rw [List.pairwise_cons] at hp
    have hbe := hb e (List.mem_cons_self e es)
    have hbt : ∀ x ∈ es, x.index < ws.length ∧ x.canShrinkBy + minA x.index ≤ ws.getD x.index 0 :=
      fun x hx => hb x (List.mem_cons_of_mem e hx)
    unfold shrinkCycle
    split
    · rename_i hcan
      split
      · constructor
        · intro x hx
          rcases List.mem_cons.mp hx with hx1 | hx2
          · subst hx1
            constructor
            · simpa using hbe.1
            · simp only
              rw [getD_set, if_pos ⟨rfl, hbe.1⟩]
              have h2 := hbe.2
              omega
          · have hx0 := hbt x hx2
            have hne : e.index ≠ x.index := hp.1 x hx2
            constructor
            · simpa using hx0.1
            · rw [getD_set, if_neg (fun hc => hne hc.1)]
              exact hx0.2
        · rw [List.pairwise_cons]
          exact ⟨fun a ha => hp.1 a ha, hp.2⟩
      · have hinv1 := shrinkInv_tail_set minA e es ws ⟨hb, by rw [List.pairwise_cons]; exact hp⟩
        have hr := ih _ (ex - 1) true hinv1
        simp only [consCycle]
        constructor
        · intro x hx
          rcases List.mem_cons.mp hx with hx1 | hx2
          · subst hx1
            have hfr : (shrinkCycle es (ws.set e.index (ws.getD e.index 0 - 1)) (ex - 1)
                true).2.1.getD e.index 0 = (ws.set e.index (ws.getD e.index 0 - 1)).getD e.index 0 :=
              shrinkCycle_frame es _ _ _ e.index (fun a ha => (hp.1 a ha).symm)
            constructor
            · simp only
              rw [shrinkCycle_ws_length]
              simpa using hbe.1
            · simp only
              rw [hfr, getD_set, if_pos ⟨rfl, hbe.1⟩]
              have h2 := hbe.2
              omega
          · exact hr.1 x hx2
        · rw [List.pairwise_cons]
          refine ⟨?_, hr.2⟩
          intro a ha
          have hidx := shrinkCycle_indices es (ws.set e.index (ws.getD e.index 0 - 1)) (ex - 1) true
          have := index_ne_of_map_eq _ es hidx e.index (fun b hb2 => (hp.1 b hb2).symm) a ha
          simp only
          exact fun hcontra => this (hcontra.symm)
    · rename_i hcan
      have hinv1 : shrinkInv minA es ws := ⟨hbt, hp.2⟩
      have hr := ih ws ex sh hinv1
      simp only [consCycle]
      constructor
      · intro x hx
        rcases List.mem_cons.mp hx with hx1 | hx2
        · rw [hx1]
          have hfr : (shrinkCycle es ws ex sh).2.1.getD e.index 0 = ws.getD e.index 0 :=
            shrinkCycle_frame es ws ex sh e.index (fun a ha => (hp.1 a ha).symm)
          constructor
          · rw [shrinkCycle_ws_length]
            exact hbe.1
          · rw [hfr]
            exact hbe.2
        · exact hr.1 x hx2
      · rw [List.pairwise_cons]
        refine ⟨?_, hr.2⟩
        intro a ha
        have hidx := shrinkCycle_indices es ws ex sh
        have := index_ne_of_map_eq _ es hidx e.index (fun b hb2 => (hp.1 b hb2).symm) a ha
        exact fun hcontra => this (hcontra.symm)

theorem shrinkCycle_delta (minA : Nat → Nat) (es : List ShrinkEntry) (ws : List Nat)
    (ex : Nat) (sh : Bool) (hex : ex ≠ 0) (hinv : shrinkInv minA es ws) :
    ∃ d, ex = (shrinkCycle es ws ex sh).2.2.1 + d ∧
      ws.sum = (shrinkCycle es ws ex sh).2.1.sum + d ∧
      canSum es = canSum (shrinkCycle es ws ex sh).1 + d ∧
      (shrinkCycle es ws ex sh).2.2.2 = (sh || decide (0 < d)) := by
  induction es generalizing ws ex sh with
  | nil =>
    refine ⟨0, by simp [shrinkCycle], by simp [shrinkCycle], by simp [shrinkCycle], ?_⟩
    simp [shrinkCycle]
  | cons e es ih =>
    obtain ⟨hb, hp⟩ := hinv
    rw [List.pairwise_cons] at hp
    have hbe := hb e (List.mem_cons_self e es)
    unfold shrinkCycle
    split
    · rename_i hcan
      have hwpos : 1 ≤ ws.getD e.index 0 := by
        have := hbe.2
        omega
      have hsum : (ws.set e.index (ws.getD e.index 0 - 1)).sum + 1 = ws.sum := by
        have := sum_set_exchange ws e.index (ws.getD e.index 0 - 1) hbe.1
        omega
      split
      · rename_i hex1
        refine ⟨1, ?_, ?_, ?_, ?_⟩
        · show ex = (ex - 1) + 1
          omega
        · show ws.sum = (ws.set e.index (ws.getD e.index 0 - 1)).sum + 1
          omega
        · show canSum (e :: es) =
            canSum ({ e with canShrinkBy := e.canShrinkBy - 1 } :: es) + 1
          simp only [canSum, List.map_cons, List.sum_cons]
          omega
        · show true = (sh || decide (0 < 1))
          simp
      · rename_i hex1
        have hinv1 := shrinkInv_tail_set minA e es ws
          ⟨hb, by rw [List.pairwise_cons]; exact hp⟩
        obtain ⟨d, hd1, hd2, hd3, hd4⟩ := ih _ (ex - 1) true hex1 hinv1
        refine ⟨d + 1, ?_, ?_, ?_, ?_⟩
        · dsimp only [consCycle]
          omega
        · dsimp only [consCycle]
          omega
        · dsimp only [consCycle]
          simp only [canSum, List.map_cons, List.sum_cons] at hd3 ⊢
          omega
        · dsimp only [consCycle]
          rw [hd4]
          simp
    · rename_i hcan
      have hinv1 : shrinkInv minA es ws := ⟨fun x hx => hb x (List.mem_cons_of_mem e hx), hp.2⟩
      obtain ⟨d, hd1, hd2, hd3, hd4⟩ := ih ws ex sh hex hinv1
      refine ⟨d, ?_, ?_, ?_, ?_⟩
      · dsimp only [consCycle]
        exact hd1
      · dsimp only [consCycle]
        exact hd2
      · dsimp only [consCycle]
        simp only [canSum, List.map_cons, List.sum_cons] at hd3 ⊢
        omega
      · dsimp only [consCycle]
        exact hd4

theorem shrinkCycle_sh_true (es : List ShrinkEntry) (ws : List Nat) (ex : Nat) :
    (shrinkCycle es ws ex true).2.2.2 = true := by
  induction es generalizing ws ex with
  | nil => rfl
  | cons e es ih =>
    unfold shrinkCycle
    split
    · split
      · rfl
      · simp only [consCycle]
        exact ih _ _
    · simp only [consCycle]
      exact ih ws ex

theorem shrinkCycle_progress (es : List ShrinkEntry) (ws : List Nat) (ex : Nat) (sh : Bool)
    (hcs : canSum es ≠ 0) : (shrinkCycle es ws ex sh).2.2.2 = true := by
  induction es generalizing ws ex sh with
  | nil => simp [canSum] at hcs
  | cons e es ih =>
    unfold shrinkCycle
    split
    · split
      · rfl
      · simp only [consCycle]
        exact shrinkCycle_sh_true _ _ _
    · rename_i hcan
      dsimp only [consCycle]
      apply ih
      simp only [canSum, List.map_cons, List.sum_cons] at hcs
      simp only [canSum]
      omega

theorem shrinkLoopF_ws_length (fuel : Nat) (es : List ShrinkEntry) (ws : List Nat)
    (ex : Nat) : (shrinkLoopF fuel es ws ex).2.1.length = ws.length := by
  induction fuel generalizing es ws ex with
  | zero => rfl
  | succ f ih =>
    unfold shrinkLoopF
    split
    · rfl
    split
    · rfl
    split
    · rw [ih]
      exact shrinkCycle_ws_length es ws ex false
    · exact shrinkCycle_ws_length es ws ex false

theorem shrinkLoopF_indices (fuel : Nat) (es : List ShrinkEntry) (ws : List Nat)
    (ex : Nat) : (shrinkLoopF fuel es ws ex).1.map (fun e => e.index) =
      es.map (fun e => e.index) := by
  induction fuel generalizing es ws ex with
  | zero => rfl
  | succ f ih =>
    unfold shrinkLoopF
    split
    · rfl
    split
    · rfl
    split
    · rw [ih]
      exact shrinkCycle_indices es ws ex false
    · exact shrinkCycle_indices es ws ex false

theorem shrinkLoopF_ws_le (fuel : Nat) (es : List ShrinkEntry) (ws : List Nat)
    (ex : Nat) (j : Nat) :
    (shrinkLoopF fuel es ws ex).2.1.getD j 0 ≤ ws.getD j 0 := by
  induction fuel generalizing es ws ex with
  | zero => exact Nat.le_refl _
  | succ f ih =>
    unfold shrinkLoopF
    split
    · exact Nat.le_refl _
    split
    · exact Nat.le_refl _
    split
    · exact Nat.le_trans (ih _ _ _) (shrinkCycle_ws_le es ws ex false j)
    · exact shrinkCycle_ws_le es ws ex false j

theorem shrinkLoopF_frame (fuel : Nat) (es : List ShrinkEntry) (ws : List Nat)
    (ex : Nat) (j : Nat) (hj : ∀ e ∈ es, e.index ≠ j) :
    (shrinkLoopF fuel es ws ex).2.1.getD j 0 = ws.getD j 0 := by
  induction fuel generalizing es ws ex with
  | zero => rfl
  | succ f ih =>
    unfold shrinkLoopF
    split
    · rfl
    split
    · rfl
    split
    · rw [ih _ _ _ (index_ne_of_map_eq _ es (shrinkCycle_indices es ws ex false) j hj)]
      exact shrinkCycle_frame es ws ex false j hj
    · exact shrinkCycle_frame es ws ex false j hj

theorem shrinkLoopF_inv (minA : Nat → Nat) (fuel : Nat) (es : List ShrinkEntry)
    (ws : List Nat) (ex : Nat) (hinv : shrinkInv minA es ws) :
    shrinkInv minA (shrinkLoopF fuel es ws ex).1 (shrinkLoopF fuel es ws ex).2.1 := by
  induction fuel generalizing es ws ex with
  | zero => exact hinv
  | succ f ih =>
    unfold shrinkLoopF
    split
    · exact hinv
    split
    · exact hinv
    split
    · exact ih _ _ _ (shrinkCycle_inv minA es ws ex false hinv)
    · exact shrinkCycle_inv minA es ws ex false hinv

/-- When the budget shortfall does not exceed the total shrink capacity and
the loop is given at least `excess` units of fuel, the shrink loop eliminates
the excess exactly, removing precisely `excess` units of total width. -/
theorem shrinkLoopF_exact (minA : Nat → Nat) (fuel : Nat) (es : List ShrinkEntry)
    (ws : List Nat) (ex : Nat) (hinv : shrinkInv minA es ws) (hfu : ex ≤ fuel)
    (hcap : ex ≤ canSum es) :
    (shrinkLoopF fuel es ws ex).2.2 = 0 ∧
    ws.sum = (shrinkLoopF fuel es ws ex).2.1.sum + ex := by
  induction fuel generalizing es ws ex with
  | zero =>
    have hex : ex = 0 := by omega
    subst hex
    exact ⟨rfl, by simp [shrinkLoopF]⟩
  | succ f ih =>
    unfold shrinkLoopF
    split
    · rename_i hex0
      refine ⟨hex0, ?_⟩
      dsimp only
      omega
    split
    · rename_i hex0 hes
      exfalso
      rw [hes] at hcap
      simp only [canSum, List.map_nil, List.sum_nil] at hcap
      omega
    · rename_i hex0 hes
      obtain ⟨d, hd1, hd2, hd3, hd4⟩ := shrinkCycle_delta minA es ws ex false hex0 hinv
      split
      · rename_i hsh
        have hdpos : 0 < d := by
          rw [hsh] at hd4
          by_contra h0
          have hd0 : d = 0 := by omega
          rw [hd0] at hd4
          simp at hd4
        have hinv2 := shrinkCycle_inv minA es ws ex false hinv
        have hres := ih (shrinkCycle es ws ex false).1 (shrinkCycle es ws ex false).2.1
          (shrinkCycle es ws ex false).2.2.1 hinv2 (by omega) (by omega)
        refine ⟨hres.1, ?_⟩
        have h2 := hres.2
        omega
      · rename_i hsh
        exfalso
        have hcs : canSum es = 0 := by
          by_contra hcs
          exact hsh (shrinkCycle_progress es ws ex false hcs)
        omega

/-! ### Shrinkable-list construction lemmas -/

theorem perm_insertByWidthDesc (e : ShrinkEntry) (l : List ShrinkEntry) :
    List.Perm (insertByWidthDesc e l) (e :: l) := by
  induction l with
  | nil => exact List.Perm.refl _
  | cons x xs ih =>
    unfold insertByWidthDesc
    split
    · exact List.Perm.refl _
    · exact (List.Perm.cons x ih).trans (List.Perm.swap e x xs)

theorem perm_sortByWidthDesc (l : List ShrinkEntry) : List.Perm (sortByWidthDesc l) l := by
  induction l with
  | nil => exact List.Perm.refl _
  | cons x xs ih =>
    unfold sortByWidthDesc
    exact (perm_insertByWidthDesc x (sortByWidthDesc xs)).trans (List.Perm.cons x ih)

theorem mem_shrinkEntriesOf (cfg : TableConfig) (cols : List String) (ws : List Nat)
    (e : ShrinkEntry) (he : e ∈ shrinkEntriesOf cfg cols ws) :
    e.index < ws.length ∧
    e.canShrinkBy = ws.getD e.index 0 - minAt cfg cols e.index ∧ 0 < e.canShrinkBy := by
  unfold shrinkEntriesOf at he
  have he2 := (perm_sortByWidthDesc _).mem_iff.mp he
  rw [List.mem_filter] at he2
  obtain ⟨hmem, hpos⟩ := he2
  rw [List.mem_map] at hmem
  obtain ⟨i, hi, hei⟩ := hmem
  rw [List.mem_range] at hi
  subst hei
  exact ⟨hi, rfl, by simpa using hpos⟩

theorem pairwise_shrinkEntriesOf (cfg : TableConfig) (cols : List String) (ws : List Nat) :
    (shrinkEntriesOf cfg cols ws).Pairwise (fun a b => a.index ≠ b.index) := by
  unfold shrinkEntriesOf
  have hsym : ∀ {a b : ShrinkEntry}, a.index ≠ b.index → b.index ≠ a.index :=
    fun h hc => h hc.symm
  rw [List.Perm.pairwise_iff hsym (perm_sortByWidthDesc _)]
  apply List.Pairwise.filter
  rw [List.pairwise_map]
  exact (List.pairwise_lt_range _).imp (fun h => Nat.ne_of_lt h)

theorem canSum_filter (l : List ShrinkEntry) :
    canSum (l.filter (fun e => decide (0 < e.canShrinkBy))) = canSum l := by
  induction l with
  | nil => rfl
  | cons e es ih =>
    simp only [List.filter_cons]
    split
    · simp only [canSum, List.map_cons, List.sum_cons] at ih ⊢
      omega
    · rename_i h
      simp only [decide_eq_true_eq] at h
      simp only [canSum, List.map_cons, List.sum_cons] at ih ⊢
      omega

theorem canSum_perm (l1 l2 : List ShrinkEntry) (h : List.Perm l1 l2) :
    canSum l1 = canSum l2 :=
  List.Perm.sum_eq (h.map _)

theorem canSum_shrinkEntriesOf (cfg : TableConfig) (cols : List String) (ws : List Nat) :
    canSum (shrinkEntriesOf cfg cols ws) =
      ((List.range ws.length).map (fun i => ws.getD i 0 - minAt cfg cols i)).sum := by
  unfold shrinkEntriesOf
  rw [canSum_perm _ _ (perm_sortByWidthDesc _), canSum_filter]
  unfold canSum
  rw [List.map_map]
  rfl

/-- The invariant holds at the start of the shrink phase, provided every
width is at or above its column minimum. -/
theorem shrinkEntriesOf_inv (cfg : TableConfig) (cols : List String) (ws : List Nat)
    (hg : ∀ j, j < ws.length → minAt cfg cols j ≤ ws.getD j 0) :
    shrinkInv (minAt cfg cols) (shrinkEntriesOf cfg cols ws) ws := by
  constructor
  · intro e he
    obtain ⟨h1, h2, h3⟩ := mem_shrinkEntriesOf cfg cols ws e he
    refine ⟨h1, ?_⟩
    have := hg e.index h1
    omega
  · exact pairwise_shrinkEntriesOf cfg cols ws

theorem sum_range_sub (f g : Nat → Nat) (n : Nat) (h : ∀ i, i < n → g i ≤ f i) :
    ((List.range n).map (fun i => f i - g i)).sum + ((List.range n).map g).sum =
      ((List.range n).map f).sum := by
  induction n with
  | zero => simp
  | succ k ih =>
    simp only [List.range_succ, List.map_append, List.sum_append, List.map_cons,
      List.map_nil, List.sum_cons, List.sum_nil]
    have hk := ih (fun i hi => h i (by omega))
    have := h k (by omega)
    omega

/-! ### Constraint-phase lemmas -/

theorem clampW_lower (w lo : Nat) (hi : Option Nat) : lo ≤ clampW w lo hi :=
  Nat.le_max_left _ _

theorem clampW_le_max (w lo m : Nat) (h : lo ≤ m) : clampW w lo (some m) ≤ m := by
  unfold clampW
  exact max_le h (Nat.min_le_right w m)

/-- When the configured minimum exceeds the configured maximum, the clamp of
`distributeWidths` resolves the conflict in favour of the minimum, whatever
the ideal width was. -/
theorem clampW_min_gt_max (w lo m : Nat) (h : m < lo) : clampW w lo (some m) = lo := by
  show max lo (min w m) = lo
  have := Nat.min_le_right w m
  omega

theorem constrainedOf_length (cfg : TableConfig) (cols : List String) (ideal : List Nat) :
    (constrainedOf cfg cols ideal).length = ideal.length := by
  simp [constrainedOf]

theorem constrainedOf_getD (cfg : TableConfig) (cols : List String) (ideal : List Nat)
    (i : Nat) (hi : i < ideal.length) :
    (constrainedOf cfg cols ideal).getD i 0 =
      clampW (ideal.getD i 0) (minAt cfg cols i) (maxAt cfg cols i) := by
  unfold constrainedOf
  exact getD_range_map _ _ _ hi

/-! ### distributeWidths structural lemmas -/

theorem distributeWidths_length (cfg : TableConfig) (cols : List String)
    (ideal : List Nat) (avail : Nat) :
    (distributeWidths cfg cols ideal avail).length = ideal.length := by
  simp only [distributeWidths]
  split
  · rw [shrinkLoopF_ws_length, growthLoopF_length, constrainedOf_length]
  · rw [growthLoopF_length, constrainedOf_length]

/-- Widths produced by the growth phase sit at or above the column minimums. -/
theorem grownOf_lower (cfg : TableConfig) (cols : List String) (ideal : List Nat)
    (fc : List Nat) (fuel rem : Nat) (j : Nat) (hj : j < ideal.length) :
    minAt cfg cols j ≤
      (growthLoopF cfg cols fc fuel (constrainedOf cfg cols ideal) rem).1.getD j 0 := by
  refine Nat.le_trans ?_ (growthLoopF_lower cfg cols fc fuel (constrainedOf cfg cols ideal) rem j)
  rw [constrainedOf_getD cfg cols ideal j hj]
  exact clampW_lower _ _ _

theorem distributeWidths_lower (cfg : TableConfig) (cols : List String)
    (ideal : List Nat) (avail : Nat) (i : Nat) (hi : i < ideal.length) :
    minAt cfg cols i ≤ (distributeWidths cfg cols ideal avail).getD i 0 := by
  simp only [distributeWidths]
  split
  · set grown := (growthLoopF cfg cols (flexColsOf cfg cols ideal.length)
      (contentBudgetOf cfg cols ideal.length avail - (constrainedOf cfg cols ideal).sum)
      (constrainedOf cfg cols ideal)
      (contentBudgetOf cfg cols ideal.length avail - (constrainedOf cfg cols ideal).sum)).1
      with hgrown
    have hlenG : grown.length = ideal.length := by
      rw [hgrown, growthLoopF_length, constrainedOf_length]
    have hlow : ∀ j, j < grown.length → minAt cfg cols j ≤ grown.getD j 0 := by
      intro j hjl
      rw [hlenG] at hjl
      exact grownOf_lower cfg cols ideal _ _ _ j hjl
    have hinv := shrinkEntriesOf_inv cfg cols grown hlow
    by_cases hmem : i ∈ (shrinkEntriesOf cfg cols grown).map (fun e => e.index)
    · have hidx := shrinkLoopF_indices (grown.sum - contentBudgetOf cfg cols ideal.length avail)
        (shrinkEntriesOf cfg cols grown) grown
        (grown.sum - contentBudgetOf cfg cols ideal.length avail)
      rw [← hidx] at hmem
      obtain ⟨e, he, hei⟩ := List.mem_map.mp hmem
      have hinvF := shrinkLoopF_inv (minAt cfg cols)
        (grown.sum - contentBudgetOf cfg cols ideal.length avail)
        (shrinkEntriesOf cfg cols grown) grown
        (grown.sum - contentBudgetOf cfg cols ideal.length avail) hinv
      have hb := hinvF.1 e he
      rw [hei] at hb
      omega
    · have hfr := shrinkLoopF_frame (grown.sum - contentBudgetOf cfg cols ideal.length avail)
        (shrinkEntriesOf cfg cols grown) grown
        (grown.sum - contentBudgetOf cfg cols ideal.length avail) i
        (fun e he hc => hmem (hc ▸ List.mem_map_of_mem _ he))
      rw [hfr]
      exact hlow i (by omega)
  · exact grownOf_lower cfg cols ideal _ _ _ i hi

theorem distributeWidths_upper (cfg : TableConfig) (cols : List String)
    (ideal : List Nat) (avail : Nat) (i m : Nat) (hi : i < ideal.length)
    (hm : maxAt cfg cols i = some m) (hmin : minAt cfg cols i ≤ m) :
    (distributeWidths cfg cols ideal avail).getD i 0 ≤ m := by
  have hcon : (constrainedOf cfg cols ideal).getD i 0 ≤ m := by
    rw [constrainedOf_getD cfg cols ideal i hi, hm]
    exact clampW_le_max _ _ _ hmin
  have hgrow := growthLoopF_upper cfg cols (flexColsOf cfg cols ideal.length)
    (contentBudgetOf cfg cols ideal.length avail - (constrainedOf cfg cols ideal).sum)
    (constrainedOf cfg cols ideal)
    (contentBudgetOf cfg cols ideal.length avail - (constrainedOf cfg cols ideal).sum)
    i m hm hcon
  simp only [distributeWidths]
  split
  · exact Nat.le_trans (shrinkLoopF_ws_le _ _ _ _ i) hgrow
  · exact hgrow

/-- Exactness of distribution: when the clamped ideal widths meet or exceed
the content budget (the table is at or over budget) and the column minimums
fit within it (the budget is satisfiable), the distributed widths sum to the
content budget exactly. -/
theorem distributeWidths_sum (cfg : TableConfig) (cols : List String)
    (ideal : List Nat) (avail : Nat)
    (hsat : minTotalOf cfg cols ideal.length ≤ contentBudgetOf cfg cols ideal.length avail)
    (hover : contentBudgetOf cfg cols ideal.length avail ≤ (constrainedOf cfg cols ideal).sum) :
    (distributeWidths cfg cols ideal avail).sum =
      contentBudgetOf cfg cols ideal.length avail := by
  simp only [distributeWidths]
  have hrem0 : contentBudgetOf cfg cols ideal.length avail -
      (constrainedOf cfg cols ideal).sum = 0 := by omega
  rw [hrem0]
  simp only [growthLoopF]
  split
  · rename_i hex
    set ws := constrainedOf cfg cols ideal with hws
    have hlen : ws.length = ideal.length := constrainedOf_length cfg cols ideal
    have hlow : ∀ j, j < ws.length → minAt cfg cols j ≤ ws.getD j 0 := by
      intro j hjl
      rw [hws, constrainedOf_getD cfg cols ideal j (by omega)]
      exact clampW_lower _ _ _
    have hinv := shrinkEntriesOf_inv cfg cols ws hlow
    have hcap : ws.sum - contentBudgetOf cfg cols ideal.length avail ≤
        canSum (shrinkEntriesOf cfg cols ws) := by
      rw [canSum_shrinkEntriesOf]
      have hsub : ((List.range ws.length).map (fun i => ws.getD i 0 - minAt cfg cols i)).sum +
          ((List.range ws.length).map (fun i => minAt cfg cols i)).sum =
          ((List.range ws.length).map (fun i => ws.getD i 0)).sum :=
        sum_range_sub (fun i => ws.getD i 0) (fun i => minAt cfg cols i) ws.length hlow
      rw [sum_range_getD] at hsub
      have hmt : ((List.range ws.length).map (fun i => minAt cfg cols i)).sum =
          minTotalOf cfg cols ideal.length := by
        rw [hlen]
        rfl
      omega
    have hex2 := shrinkLoopF_exact (minAt cfg cols)
      (ws.sum - contentBudgetOf cfg cols ideal.length avail)
      (shrinkEntriesOf cfg cols ws) ws
      (ws.sum - contentBudgetOf cfg cols ideal.length avail) hinv (Nat.le_refl _) hcap
    have h2 := hex2.2
    omega
  · rename_i hex
    omega

/-! ### Line-width lemmas -/

theorem sum_width_pad (cfg : TableConfig) (cols : List String) (widths : List Nat) :
    ((List.range widths.length).map (fun i =>
      widths.getD i 0 + ((padAt cfg cols i).left + (padAt cfg cols i).right))).sum =
      widths.sum + totalPaddingOf cfg cols widths.length := by
  have hsplit : ((List.range widths.length).map (fun i =>
      widths.getD i 0 + ((padAt cfg cols i).left + (padAt cfg cols i).right))).sum =
      ((List.range widths.length).map (fun i => widths.getD i 0)).sum +
      ((List.range widths.length).map (fun i =>
        (padAt cfg cols i).left + (padAt cfg cols i).right)).sum :=
    sum_range_split (fun i => widths.getD i 0)
      (fun i => (padAt cfg cols i).left + (padAt cfg cols i).right) widths.length
  rw [hsplit, sum_range_getD]
  rfl

theorem strWidth_renderSeparator (cfg : TableConfig) (cols : List String)
    (widths : List Nat) (l m r line : Str)
    (hl : strWidth l = 1) (hm : strWidth m = 1) (hr : strWidth r = 1)
    (hline : strWidth line = 1) (hn : 1 ≤ widths.length) :
    strWidth (renderSeparator cfg cols widths l m r line) =
      widths.sum + totalPaddingOf cfg cols widths.length + widths.length + 1 := by
  unfold renderSeparator
  rw [strWidth_append, strWidth_append, strWidth_joinSep, hl, hm, hr]
  have hmap : ((List.range widths.length).map (fun i =>
      repeatStr line (widths.getD i 0 + (padAt cfg cols i).left +
        (padAt cfg cols i).right))).map strWidth =
      (List.range widths.length).map (fun i =>
        widths.getD i 0 + ((padAt cfg cols i).left + (padAt cfg cols i).right)) := by
    rw [List.map_map]
    apply List.map_congr_left
    intro i hi
    simp only [Function.comp]
    rw [strWidth_repeatStr, hline]
    ring
  rw [hmap, sum_width_pad]
  simp only [List.length_map, List.length_range]
  omega

theorem strWidth_renderHeader (cfg : TableConfig) (cols : List String)
    (headers : List Str) (widths : List Nat)
    (hv : strWidth cfg.border.vertical = 1)
    (hlen : headers.length = widths.length) (hn : 1 ≤ widths.length) :
    strWidth (renderHeader cfg cols headers widths) =
      widths.sum + totalPaddingOf cfg cols widths.length + widths.length + 1 := by
  unfold renderHeader
  rw [strWidth_append, strWidth_append, strWidth_joinSep, hv]
  have hmap : ((List.range headers.length).map (fun i =>
      if isBlank (alignAndTruncateText cfg cols (headers.getD i [])
          (widths.getD i 0) (alignmentAt cfg cols i) i) then
        alignAndTruncateText cfg cols (headers.getD i [])
          (widths.getD i 0) (alignmentAt cfg cols i) i
      else
        applyStyle (alignAndTruncateText cfg cols (headers.getD i [])
          (widths.getD i 0) (alignmentAt cfg cols i) i)
          (Style.merge cfg.theme.header
            (((colConfigAt cfg cols i).bind (fun c => c.headerStyle)).getD {})))).map strWidth =
      (List.range headers.length).map (fun i =>
        widths.getD i 0 + ((padAt cfg cols i).left + (padAt cfg cols i).right)) := by
    rw [List.map_map]
    apply List.map_congr_left
    intro i hi
    simp only [Function.comp]
    split
    · rw [strWidth_align]
      ring
    · rw [strWidth_applyStyle, strWidth_align]
      ring
  rw [hmap, hlen, sum_width_pad]
  simp only [List.length_map, List.length_range]
  omega

theorem strWidth_renderRow (cfg : TableConfig) (cols : List String)
    (rowCells : List Str) (orig : List (String × Cell)) (widths : List Nat)
    (rowIndex : Int)
    (hv : strWidth cfg.border.vertical = 1)
    (hcs : strWidth cfg.border.cellSeparator = 1)
    (hlen : rowCells.length = widths.length) (hn : 1 ≤ widths.length) :
    strWidth (renderRow cfg cols rowCells orig widths rowIndex) =
      widths.sum + totalPaddingOf cfg cols widths.length + widths.length + 1 := by
  unfold renderRow
  rw [strWidth_append, strWidth_append, strWidth_joinSep, hv, hcs]
  have hmap : ((List.range rowCells.length).map (fun i =>
      renderDataCell cfg cols orig rowIndex i (rowCells.getD i []) (widths.getD i 0))).map
        strWidth =
      (List.range rowCells.length).map (fun i =>
        widths.getD i 0 + ((padAt cfg cols i).left + (padAt cfg cols i).right)) := by
    rw [List.map_map]
    apply List.map_congr_left
    intro i hi
    simp only [Function.comp]
    unfold renderDataCell
    rw [strWidth_applyStyle, strWidth_align]
    ring
  rw [hmap, hlen, sum_width_pad]
  simp only [List.length_map, List.length_range]
  omega

theorem bumpWidths_length (ws : List Nat) (row : List Str) :
    (bumpWidths ws row).length = ws.length := by
  induction ws generalizing row with
  | nil => cases row <;> rfl
  | cons w ws ih =>
    cases row with
    | nil => rfl
    | cons c cs => simp [bumpWidths, ih]

theorem calculateColumnWidths_length (headers : List Str) (dataWindow : List (List Str)) :
    (calculateColumnWidths headers dataWindow).length = headers.length := by
  unfold calculateColumnWidths
  have hgen : ∀ (dw : List (List Str)) (init : List Nat),
      (dw.foldl (fun ws row => bumpWidths ws row) init).length = init.length := by
    intro dw
    induction dw with
    | nil => intro init; rfl
    | cons r rs ih =>
      intro init
      rw [List.foldl_cons, ih, bumpWidths_length]
  rw [hgen]
  simp

theorem headerLabelsOf_length (cfg : TableConfig) (cols : List String) :
    (headerLabelsOf cfg cols).length = cols.length := by
  simp [headerLabelsOf]

theorem strWidth_of_plain (s : Str) (h : plainStr s = true) : strWidth s = s.length := by
  induction s with
  | nil => rfl
  | cons c cs ih =>
    simp only [plainStr, List.all_cons, Bool.and_eq_true] at h
    simp only [plainStr] at ih
    simp only [strWidth, List.map_cons, List.sum_cons, List.length_cons] at *
    cases c with
    | glyph ch w =>
      simp only at h
      have hw : w = 1 := by simpa using h.1
      rw [hw, ih h.2]
      simp only [chWidth]
      omega
    | escOpen op => simp at h
    | escClose op => simp at h

theorem renderDataRows_mem (cfg : TableConfig) (cols : List String) (widths : List Nat) :
    ∀ (rows : List (List Str)) (origs : List (List (String × Cell))) (idx : Int) (l : Str),
      l ∈ renderDataRows cfg cols widths rows origs idx →
      ∃ row o i2, row ∈ rows ∧ l = renderRow cfg cols row o widths i2 := by
  intro rows
  induction rows with
  | nil =>
    intro origs idx l hl
    simp [renderDataRows] at hl
  | cons r rs ih =>
    intro origs idx l hl
    unfold renderDataRows at hl
    rcases List.mem_cons.mp hl with h1 | h2
    · exact ⟨r, origs.headD [], idx, List.mem_cons_self r rs, h1⟩
    · obtain ⟨row, o, i2, hrow, heq⟩ := ih origs.tail (idx + 1) l h2
      exact ⟨row, o, i2, List.mem_cons_of_mem r hrow, heq⟩

/-- Every line assembled by `render` has display width exactly `W`, under the
amended side conditions: at least one column, width-1 border glyphs, a
satisfiable budget, a table at or over budget after clamping, and a plain
footer that fits. -/
theorem assembleLines_width (cfg : TableConfig) (cols : List String) (totalRows : Int)
    (W : Nat) (fw : List (List Str)) (originals : List (List (String × Cell)))
    (hb : borderOk cfg.border) (hn : cols ≠ [])
    (hfwlen : ∀ r ∈ fw, r.length = cols.length)
    (hsat : minTotalOf cfg cols cols.length + totalPaddingOf cfg cols cols.length +
      (cols.length + 1) ≤ W)
    (hover : contentBudgetOf cfg cols cols.length W ≤
      (constrainedOf cfg cols (calculateColumnWidths (headerLabelsOf cfg cols) fw)).sum)
    (hfoot : footerOk cfg cols totalRows
      (distributeWidths cfg cols (calculateColumnWidths (headerLabelsOf cfg cols) fw) W)) :
    ∀ l ∈ assembleLines cfg cols totalRows W fw originals, strWidth l = W := by
  obtain ⟨hbh, hbv, hbtl, hbtr, hbbl, hbbr, hbhl, hbhr, hbts, hbms, hbbs, hbcs⟩ := hb
  have hn1 : 1 ≤ cols.length := by
    cases cols with
    | nil => exact absurd rfl hn
    | cons a b => simp
  set ideal := calculateColumnWidths (headerLabelsOf cfg cols) fw with hideal
  have hlenI : ideal.length = cols.length := by
    rw [hideal, calculateColumnWidths_length, headerLabelsOf_length]
  set final := distributeWidths cfg cols ideal W with hfinal
  have hlenF : final.length = cols.length := by
    rw [hfinal, distributeWidths_length, hlenI]
  have hbudget : contentBudgetOf cfg cols cols.length W =
      W - (cols.length + 1) - totalPaddingOf cfg cols cols.length := rfl
  have hsum : final.sum = contentBudgetOf cfg cols cols.length W := by
    rw [hfinal]
    rw [distributeWidths_sum cfg cols ideal W (by rw [hlenI]; omega) (by rw [hlenI]; exact hover)]
    rw [hlenI]
  have hkey : final.sum + totalPaddingOf cfg cols final.length + final.length + 1 = W := by
    rw [hlenF, hsum, hbudget]
    omega
  have hinner : totalInnerWidthOf cfg cols final + 2 = W := by
    unfold totalInnerWidthOf
    rw [hlenF]
    split
    · omega
    · have : cols.length = 1 := by omega
      rw [hlenF] at hkey
      omega
  intro l hl
  unfold assembleLines at hl
  simp only [← hideal, ← hfinal] at hl
  rcases List.mem_append.mp hl with h3 | htail
  · rcases List.mem_append.mp h3 with hhead3 | hdata
    · rcases List.mem_cons.mp hhead3 with h1 | h1'
      · rw [h1]
        rw [strWidth_renderSeparator cfg cols final _ _ _ _ hbtl hbts hbtr hbh (by omega)]
        exact hkey
      rcases List.mem_cons.mp h1' with h2 | h2'
      · rw [h2]
        rw [strWidth_renderHeader cfg cols _ final hbv
          (by rw [headerLabelsOf_length, hlenF]) (by omega)]
        exact hkey
      rcases List.mem_cons.mp h2' with h3' | h4
      · rw [h3']
        rw [strWidth_renderSeparator cfg cols final _ _ _ _ hbhl hbms hbhr hbh (by omega)]
        exact hkey
      · simp at h4
    · split at hdata
      · rcases List.mem_cons.mp hdata with h1 | h1
        · rw [h1]
          rw [strWidth_renderRow cfg cols _ _ final 0 hbv hbcs
            (by simp [hlenF]) (by omega)]
          exact hkey
        · simp at h1
      · obtain ⟨row, o, i2, hrow, heq⟩ := renderDataRows_mem cfg cols final fw originals
          (startRowOf cfg) l hdata
        rw [heq]
        rw [strWidth_renderRow cfg cols row o final i2 hbv hbcs
          (by rw [hfwlen row hrow, hlenF]) (by omega)]
        exact hkey
  · unfold footerOk at hfoot
    rcases hcff : cfg.footer with hnone | f
    all_goals rw [hcff] at htail hfoot
    · rcases List.mem_cons.mp htail with h1 | h1
      · rw [h1]
        rw [strWidth_renderSeparator cfg cols final _ _ _ _ hbbl hbbs hbbr hbh (by omega)]
        exact hkey
      · simp at h1
    · rcases List.mem_cons.mp htail with h1 | h1'
      · rw [h1]
        rw [strWidth_renderSeparator cfg cols final _ _ _ _ hbhl hbbs hbhr hbh (by omega)]
        exact hkey
      rcases List.mem_cons.mp h1' with h2 | h2'
      · rw [h2]
        rw [strWidth_append, strWidth_append, hbv]
        rw [strWidth_applyStyle]
        unfold padEndTok
        rw [strWidth_append, strWidth_spaces]
        obtain ⟨hplain, hfit⟩ := hfoot
        have hcw : strWidth (sp :: f (footerInfoOf cfg totalRows)) =
            1 + (f (footerInfoOf cfg totalRows)).length := by
          simp only [strWidth, List.map_cons, List.sum_cons, sp, chWidth]
          have := strWidth_of_plain _ hplain
          simp only [strWidth] at this
          omega
        rw [hcw]
        simp only [List.length_cons]
        omega
      rcases List.mem_cons.mp h2' with h3' | h4
      · rw [h3']
        rw [strWidth_append, strWidth_append, hbbl, hbbr, strWidth_repeatStr, hbh]
        omega
      · simp at h4

theorem exceptMapM_ok_mem (f : α → Except ε β) (xs : List α) (ys : List β)
    (h : exceptMapM f xs = .ok ys) : ∀ y ∈ ys, ∃ x ∈ xs, f x = .ok y := by
  induction xs generalizing ys with
  | nil =>
    intro y hy
    unfold exceptMapM at h
    have : ys = [] := by
      cases h
      rfl
    subst this
    simp at hy
  | cons x xs ih =>
    intro y hy
    unfold exceptMapM at h
    split at h
    · cases h
    · rename_i b hb
      split at h
      · cases h
      · rename_i bs hbs
        cases h
        rcases List.mem_cons.mp hy with h1 | h2
        · exact ⟨x, List.mem_cons_self x xs, by rw [hb, h1]⟩
        · obtain ⟨x2, hx2, hfx2⟩ := ih bs hbs y h2
          exact ⟨x2, List.mem_cons_of_mem x hx2, hfx2⟩

theorem getArrayRow_ok_length (src : JSONDataSource) (i : Int) (row : List Cell)
    (h : src.getArrayRow i = .ok row) : row.length = src.columnNames.length := by
  unfold JSONDataSource.getArrayRow at h
  split at h
  · cases h
  · cases h
    simp

/-- Rows of a successful formatting pass have one cell per column. -/
theorem formattedWindowE_row_length (src : JSONDataSource) (cfg : TableConfig)
    (fw : List (List Str)) (hfw : formattedWindowE src cfg = Except.ok fw) :
    ∀ r ∈ fw, r.length = src.columnNames.length := by
  intro r hr
  obtain ⟨i, hi, hfi⟩ := exceptMapM_ok_mem _ _ _ hfw r hr
  cases harr : src.getArrayRow i with
  | error e =>
    rw [harr] at hfi
    cases hfi
  | ok row =>
    rw [harr] at hfi
    have heq : formatRow cfg src.columnNames row i = r := by
      cases hfi
      rfl
    rw [← heq]
    unfold formatRow
    simp only [List.length_map, List.length_range]
    exact getArrayRow_ok_length src i row harr

/-- C1, amended: width conservation holds for a configured available-width
budget `W` that is satisfiable by the column minimums, provided additionally
that the source has at least one column, border glyphs are single-width, the
min/max-clamped ideal widths total at least the content budget (the table is
at or over budget, so distribution shrinks to fit exactly), and any footer
produces plain text fitting the inner width: every line of the rendered
output then has display width exactly `W`.  The original claim — exact width
`W` from satisfiability alone — is false: when the clamped content total is
under budget and no flex growth absorbs the slack, lines come out narrower
than `W` (see the counterexample). -/
theorem width_conservation (src : JSONDataSource) (cfg : TableConfig)
    (termCols : Option Nat) (W : Nat) (fw : List (List Str))
    (hW : cfg.maxWidth = some W)
    (hcols : src.columnNames ≠ [])
    (hb : borderOk cfg.border)
    (hfw : formattedWindowE src cfg = Except.ok fw)
    (hsat : minTotalOf cfg src.columnNames src.columnNames.length +
      totalPaddingOf cfg src.columnNames src.columnNames.length +
      (src.columnNames.length + 1) ≤ W)
    (hover : contentBudgetOf cfg src.columnNames src.columnNames.length W ≤
      (constrainedOf cfg src.columnNames
        (calculateColumnWidths (headerLabelsOf cfg src.columnNames) fw)).sum)
    (hfoot : footerOk cfg src.columnNames (src.rowCount : Int)
      (distributeWidths cfg src.columnNames
        (calculateColumnWidths (headerLabelsOf cfg src.columnNames) fw) W)) :
    ∀ l ∈ linesOf (renderLines src cfg termCols), strWidth l = W := by
  intro l hl
  simp only [renderLines, hfw, hW, Option.getD_some] at hl
  rw [if_neg hcols] at hl
  cases horig : originalsE src cfg with
  | error e =>
    rw [horig] at hl
    simp [linesOf] at hl
  | ok os =>
    rw [horig] at hl
    simp only [linesOf] at hl
    exact assembleLines_width cfg src.columnNames (src.rowCount : Int) W fw os
      hb hcols (formattedWindowE_row_length src cfg fw hfw) hsat hover hfoot l hl

/-- Width-conservation witness: a one-column table over budget at `maxWidth`
10 renders its first line at display width exactly 10. -/
theorem width_conservation_witness :
    strWidth ((linesOf (renderLines exSrcLong exCfgBudget10 none)).headD []) = 10 :=
  width_conservation exSrcLong exCfgBudget10 none 10 [[glyphs 'x' 10]] rfl (by decide)
    (by unfold borderOk; decide) (by rfl) (by decide) (by decide) (by trivial)
    ((linesOf (renderLines exSrcLong exCfgBudget10 none)).headD []) (by decide)

/-- C1 counterexample: with budget 40 — satisfiable, since minimum sum 1 plus
padding 2 plus border overhead 2 is 5 ≤ 40 — but content under budget and no
flex column, every rendered line has display width 5, not 40: width
conservation as originally claimed fails. -/
theorem width_conservation_cex :
    minTotalOf exCfgBudget40 ["a"] 1 + totalPaddingOf exCfgBudget40 ["a"] 1 + 2 ≤ 40 ∧
    (linesOf (renderLines exSrcShort exCfgBudget40 none)).map strWidth = [5, 5, 5, 5, 5] ∧
    ((linesOf (renderLines exSrcShort exCfgBudget40 none)).map strWidth).all
      (fun w => w == 40) = false :=
  ⟨by decide, by decide, by decide⟩

/-- C2, amended: the width-distribution step performs no configuration
validation and raises no ConfigurationError.  A column whose configured
minimum exceeds its configured maximum is silently repaired by the clamp
`Math.max(min, Math.min(w, max))`, with the minimum winning, and
distribution always returns a full width vector (one entry per column) —
it never fails.  The original claim, that such a configuration fails
immediately with a ConfigurationError and is never resolved by clamping,
is refuted by `config_error_cex`. -/
theorem min_over_max_clamps_silently (cfg : TableConfig) (cols : List String)
    (ideal : List Nat) (avail : Nat) (i m : Nat)
    (hi : i < ideal.length) (hm : maxAt cfg cols i = some m)
    (h : m < minAt cfg cols i) :
    (constrainedOf cfg cols ideal).getD i 0 = minAt cfg cols i ∧
    (distributeWidths cfg cols ideal avail).length = ideal.length := by
  constructor
  · rw [constrainedOf_getD cfg cols ideal i hi, hm]
    exact clampW_min_gt_max _ _ _ h
  · exact distributeWidths_length cfg cols ideal avail

theorem min_over_max_clamps_silently_witness :
    0 < 1 ∧ maxAt exCfgMinOverMax ["a"] 0 = some 4 ∧ 4 < minAt exCfgMinOverMax ["a"] 0 ∧
    (constrainedOf exCfgMinOverMax ["a"] [7]).getD 0 0 = minAt exCfgMinOverMax ["a"] 0 ∧
    (distributeWidths exCfgMinOverMax ["a"] [7] 60).length = 1 :=
  ⟨by decide, by decide, by decide,
   min_over_max_clamps_silently exCfgMinOverMax ["a"] [7] 60 0 4 (by decide) (by decide)
     (by decide)⟩

/-- C2 counterexample: for column `a` configured with minimum 9 over maximum
4, the width-distribution step does not fail — it returns a width vector in
which the offending column was silently clamped to its minimum 9 (exceeding
the maximum 4), contradicting both the claimed ConfigurationError and the
claimed absence of silent repair. -/
theorem config_error_cex :
    distributeWidths exCfgMinOverMax ["a"] [7] 60 = [9] ∧
    minAt exCfgMinOverMax ["a"] 0 = 9 ∧ maxAt exCfgMinOverMax ["a"] 0 = some 4 :=
  ⟨by decide, by decide, by decide⟩

/-- C3, amended: the distributed width list always has exactly one entry per
column, and the ideal-width list computed by `calculateColumnWidths` has one
entry per column; every final width is at least the column's configured
minimum width (which defaults to 1 when unset), and at most the configured
maximum whenever that maximum is at least the effective minimum.  The
original bounds — at least `max(1, configured minimum)` unconditionally, and
at most the maximum whenever one is set — fail when a minimum below 1 is
configured or when the minimum exceeds the maximum; see the counterexample. -/
theorem widths_bounds (cfg : TableConfig) (cols : List String)
    (ideal : List Nat) (avail : Nat) :
    (distributeWidths cfg cols ideal avail).length = ideal.length ∧
    (∀ fw, (calculateColumnWidths (headerLabelsOf cfg cols) fw).length = cols.length) ∧
    ∀ i, i < ideal.length →
      minAt cfg cols i ≤ (distributeWidths cfg cols ideal avail).getD i 0 ∧
      ∀ m, maxAt cfg cols i = some m → minAt cfg cols i ≤ m →
        (distributeWidths cfg cols ideal avail).getD i 0 ≤ m := by
  refine ⟨distributeWidths_length cfg cols ideal avail, ?_, ?_⟩
  · intro fw
    rw [calculateColumnWidths_length, headerLabelsOf_length]
  · intro i hi
    exact ⟨distributeWidths_lower cfg cols ideal avail i hi,
      fun m hm hmin => distributeWidths_upper cfg cols ideal avail i m hi hm hmin⟩

theorem widths_bounds_witness :
    0 < 1 ∧ minAt exCfgEmpty ["a"] 0 ≤ (distributeWidths exCfgEmpty ["a"] [3] 80).getD 0 0 :=
  ⟨by decide, ((widths_bounds exCfgEmpty ["a"] [3] 80).2.2 0 (by decide)).1⟩

/-- C3 counterexample: with configured minimum width 0 and empty content the
final width is 0, below the claimed lower bound `max(1, 0) = 1`; and with
minimum 10 over maximum 5 the final width is 10, above the claimed upper
bound of the configured maximum. -/
theorem widths_bounds_cex :
    distributeWidths exCfgEdgeMin ["a"] [0] 80 = [0] ∧
    distributeWidths exCfgEdgeMin ["b"] [7] 80 = [10] ∧
    maxAt exCfgEdgeMin ["b"] 0 = some 5 :=
  ⟨by decide, by decide, by decide⟩

/-- C4: truncation correctness.  For any cell text wider than its assigned
width: when the truncation marker fits, the truncated text is a prefix of the
original followed by the marker (so it ends with the marker); when it does
not, the truncated text is a clipped prefix of the marker itself.  In every
case the aligned cell has display width exactly
`width + padding.left + padding.right`.  ("Cell text ends with the marker"
refers to the truncated text before space fill, as in the spec's account of
truncation followed by alignment.) -/
theorem truncation_correct (cfg : TableConfig) (cols : List String) (text : Str)
    (width : Nat) (a : Alignment) (i : Nat) (h : width < strWidth text) :
    ((strWidth (cfg.truncationChar.getD DEFAULT_TRUNCATION_CHAR) ≤ width →
        ∃ p, truncToWidth (cfg.truncationChar.getD DEFAULT_TRUNCATION_CHAR) text width =
          p ++ cfg.truncationChar.getD DEFAULT_TRUNCATION_CHAR) ∧
      (width < strWidth (cfg.truncationChar.getD DEFAULT_TRUNCATION_CHAR) →
        ∃ r, truncToWidth (cfg.truncationChar.getD DEFAULT_TRUNCATION_CHAR) text width ++ r =
          cfg.truncationChar.getD DEFAULT_TRUNCATION_CHAR)) ∧
    strWidth (alignAndTruncateText cfg cols text width a i) =
      width + (padAt cfg cols i).left + (padAt cfg cols i).right :=
  ⟨⟨fun hm => truncToWidth_marker _ text width h hm,
    fun hm => truncToWidth_clip _ text width h (by omega)⟩,
   strWidth_align cfg cols text width a i⟩

theorem truncation_correct_witness :
    2 < strWidth (glyphs 'x' 3) ∧
    (((strWidth (exCfgEmpty.truncationChar.getD DEFAULT_TRUNCATION_CHAR) ≤ 2 →
        ∃ p, truncToWidth (exCfgEmpty.truncationChar.getD DEFAULT_TRUNCATION_CHAR)
            (glyphs 'x' 3) 2 =
          p ++ exCfgEmpty.truncationChar.getD DEFAULT_TRUNCATION_CHAR) ∧
      (2 < strWidth (exCfgEmpty.truncationChar.getD DEFAULT_TRUNCATION_CHAR) →
        ∃ r, truncToWidth (exCfgEmpty.truncationChar.getD DEFAULT_TRUNCATION_CHAR)
            (glyphs 'x' 3) 2 ++ r =
          exCfgEmpty.truncationChar.getD DEFAULT_TRUNCATION_CHAR)) ∧
     strWidth (alignAndTruncateText exCfgEmpty ["a"] (glyphs 'x' 3) 2 Alignment.left 0) =
       2 + (padAt exCfgEmpty ["a"] 0).left + (padAt exCfgEmpty ["a"] 0).right) :=
  ⟨by decide, truncation_correct exCfgEmpty ["a"] (glyphs 'x' 3) 2 Alignment.left 0 (by decide)⟩

/-- C5: style precedence.  The effective style of a data cell in `renderRow`
is, attribute by attribute, the right-biased fall-through of the four
sources: the per-cell conditional style (computed from the raw value) first,
then the static column style, then the row conditional style (computed from
the row's field set), then the theme base — `alternatingCell` when
alternating rows are enabled and the row index is odd, else `cell`.  Each
later stage overrides only the attributes it defines; an undefined attribute
falls through, as the second conjunct makes explicit. -/
theorem style_precedence (cfg : TableConfig) (cols : List String)
    (row : List (String × Cell)) (rowIndex : Int) (i : Nat) :
    (cellEffectiveStyle cfg cols row rowIndex i =
      { color := fallback4 (condCellStyleOf cfg cols row i).color
          (staticColStyleOf cfg cols i).color (condRowStyleOf cfg row).color
          ((if cfg.alternatingRows && !(rowIndex % 2 == 0) then cfg.theme.alternatingCell
            else cfg.theme.cell).color)
        backgroundColor := fallback4 (condCellStyleOf cfg cols row i).backgroundColor
          (staticColStyleOf cfg cols i).backgroundColor
          (condRowStyleOf cfg row).backgroundColor
          ((if cfg.alternatingRows && !(rowIndex % 2 == 0) then cfg.theme.alternatingCell
            else cfg.theme.cell).backgroundColor)
        bold := fallback4 (condCellStyleOf cfg cols row i).bold
          (staticColStyleOf cfg cols i).bold (condRowStyleOf cfg row).bold
          ((if cfg.alternatingRows && !(rowIndex % 2 == 0) then cfg.theme.alternatingCell
            else cfg.theme.cell).bold)
        italic := fallback4 (condCellStyleOf cfg cols row i).italic
          (staticColStyleOf cfg cols i).italic (condRowStyleOf cfg row).italic
          ((if cfg.alternatingRows && !(rowIndex % 2 == 0) then cfg.theme.alternatingCell
            else cfg.theme.cell).italic)
        underline := fallback4 (condCellStyleOf cfg cols row i).underline
          (staticColStyleOf cfg cols i).underline (condRowStyleOf cfg row).underline
          ((if cfg.alternatingRows && !(rowIndex % 2 == 0) then cfg.theme.alternatingCell
            else cfg.theme.cell).underline) }) ∧
    ∀ (a b c d : Option String), fallback4 a b c d =
      if a.isSome then a else if b.isSome then b else if c.isSome then c else d := by
  constructor
  · rfl
  · intro a b c d
    cases a <;> cases b <;> cases c <;> rfl

/-- C6: pre-styled passthrough.  Text containing a styling/escape marker (as
produced by a pre-styling column formatter) is returned unchanged by the
style-application step, whatever style the precedence chain computed; and in
`renderRow` such a cell appears in the final output surrounded only by space
fill, unmodified, whenever it fits its assigned width. -/
theorem prestyled_passthrough (t : Str) (s : Style) (cfg : TableConfig)
    (cols : List String) (row : List (String × Cell)) (rowIndex : Int) (i : Nat)
    (w : Nat) (hesc : containsEsc t = true) :
    applyStyle t s = t ∧
    (strWidth t ≤ w →
      ∃ x y, renderDataCell cfg cols row rowIndex i t w = spaces x ++ t ++ spaces y) := by
  constructor
  · simp [applyStyle, hesc]
  · intro hfit
    obtain ⟨x, y, hxy⟩ := align_fit cfg cols t w (alignmentAt cfg cols i) i hfit
    refine ⟨x, y, ?_⟩
    unfold renderDataCell
    rw [hxy]
    have hesc2 : containsEsc (spaces x ++ t ++ spaces y) = true := by
      simp only [containsEsc, List.any_append, Bool.or_eq_true]
      simp only [containsEsc] at hesc
      left
      right
      exact hesc
    unfold applyStyle
    rw [if_pos hesc2]

theorem prestyled_passthrough_witness :
    containsEsc (Ch.escOpen StyleOp.bold :: glyphs 'x' 1) = true ∧
    (applyStyle (Ch.escOpen StyleOp.bold :: glyphs 'x' 1)
        { color := some ("red") } = Ch.escOpen StyleOp.bold :: glyphs 'x' 1 ∧
      (strWidth (Ch.escOpen StyleOp.bold :: glyphs 'x' 1) ≤ 3 →
        ∃ x y, renderDataCell exCfgEmpty ["a"] [] 0 0
            (Ch.escOpen StyleOp.bold :: glyphs 'x' 1) 3 =
          spaces x ++ (Ch.escOpen StyleOp.bold :: glyphs 'x' 1) ++ spaces y)) :=
  ⟨by decide, prestyled_passthrough (Ch.escOpen StyleOp.bold :: glyphs 'x' 1)
    { color := some ("red") } exCfgEmpty ["a"] [] 0 0 3 (by decide)⟩

theorem mem_intRange (a b i : Int) : i ∈ intRange a b ↔ a ≤ i ∧ i < b := by
  unfold intRange
  constructor
  · intro h
    obtain ⟨k, hk, hik⟩ := List.mem_map.mp h
    rw [List.mem_range] at hk
    subst hik
    have hk2 : (k : Int) < ((b - a).toNat : Int) := by exact_mod_cast hk
    omega
  · rintro ⟨h1, h2⟩
    apply List.mem_map.mpr
    refine ⟨(i - a).toNat, ?_, ?_⟩
    · rw [List.mem_range]
      omega
    · omega

/-- C7: pagination.  The display window rendered by `render` is exactly the
interval `[max(0, offset), min(totalRows, max(0, offset) + limit))` of row
indices; and concretely, with `offset = 1` and `limit = 1` over a two-row
source, the output text contains the second row's content (`bb`) and
excludes the first row's content (`aa`). -/
theorem pagination_window :
    (∀ (cfg : TableConfig) (totalRows i : Int),
      i ∈ windowIdx cfg totalRows ↔
        max 0 (cfg.rowOffset.getD 0) ≤ i ∧
        i < min totalRows (max 0 (cfg.rowOffset.getD 0) + cfg.rowLimit.getD totalRows)) ∧
    containsSeq (renderText exSrcTwoRows exCfgPage none) (glyphs 'b' 2) = true ∧
    containsSeq (renderText exSrcTwoRows exCfgPage none) (glyphs 'a' 2) = false := by
  refine ⟨?_, by decide, by decide⟩
  intro cfg totalRows i
  unfold windowIdx
  rw [mem_intRange]
  unfold startRowOf endRowOf
  exact Iff.rfl

/-- C8: the iterative growth phase terminates.  `remaining` units of fuel are
always enough — the loop reaches one of its own break conditions within that
many iterations, because every continuing iteration distributes at least one
unit of the remaining space (first conjunct: extra fuel never changes the
result).  Moreover it exits immediately, leaving the widths untouched, as
soon as no flexible column can grow further (second conjunct) or an
iteration distributes no space, the proportional floor having reached zero
for every growable column (third conjunct). -/
theorem growth_termination (cfg : TableConfig) (cols : List String) (flexCols : List Nat)
    (ws : List Nat) (rem k fuel : Nat) :
    growthLoopF cfg cols flexCols (rem + k) ws rem =
      growthLoopF cfg cols flexCols rem ws rem ∧
    (growableOf cfg cols flexCols ws = [] →
      growthLoopF cfg cols flexCols (fuel + 1) ws rem = (ws, rem)) ∧
    ((growthCycle cfg cols (growableOf cfg cols flexCols ws)
        (totalFlexOf cfg cols (growableOf cfg cols flexCols ws)) ws rem).2 = 0 →
      growthLoopF cfg cols flexCols (fuel + 1) ws rem = (ws, rem)) := by
  refine ⟨growthLoopF_stable cfg cols flexCols rem ws (rem + k) rem (by omega)
    (Nat.le_refl _), ?_, ?_⟩
  · intro hg
    unfold growthLoopF
    split
    · rfl
    · simp [hg]
  · intro hd
    unfold growthLoopF
    split
    · rfl
    split
    · rfl
    split
    · rfl
    · rw [growthCycle_zero cfg cols _ _ ws rem hd]

theorem growth_termination_witness :
    growthLoopF exCfgEmpty ["a"] [] 6 [3] 5 = growthLoopF exCfgEmpty ["a"] [] 5 [3] 5 ∧
    growthLoopF exCfgEmpty ["a"] [] 8 [3] 5 = ([3], 5) := by
  have h := growth_termination exCfgEmpty ["a"] [] [3] 5 1 7
  exact ⟨h.1, h.2.1 (by decide)⟩

/-- C9: for every configuration — any offset and limit, including negative
values, a zero limit, or an offset beyond the row count — every row index in
the display window iterated by `render` lies in `[0, rowCount)`; hence both
row accessors succeed there and the out-of-range error branch of
`JSONDataSource.getArrayRow` is unreachable from `render`. -/
theorem window_in_range (cfg : TableConfig) (src : JSONDataSource) (i : Int)
    (hi : i ∈ windowIdx cfg (src.rowCount : Int)) :
    0 ≤ i ∧ i < (src.rowCount : Int) ∧
    (∃ r, src.getArrayRow i = Except.ok r) ∧
    (∃ o, src.getObjectRow i = Except.ok o) := by
  unfold windowIdx at hi
  rw [mem_intRange] at hi
  have h1 : 0 ≤ i := by
    have h := hi.1
    unfold startRowOf at h
    omega
  have h2 : i < (src.rowCount : Int) := by
    have h := hi.2
    unfold endRowOf at h
    omega
  unfold JSONDataSource.rowCount at h2
  refine ⟨h1, h2, ?_, ?_⟩
  · unfold JSONDataSource.getArrayRow
    rw [if_neg (by omega)]
    exact ⟨_, rfl⟩
  · unfold JSONDataSource.getObjectRow
    rw [if_neg (by omega)]
    exact ⟨_, rfl⟩

theorem window_in_range_witness :
    (0 : Int) ∈ windowIdx exCfgEmpty ((exSrcShort.rowCount : Nat) : Int) ∧
    (0 ≤ (0 : Int) ∧ (0 : Int) < (exSrcShort.rowCount : Int) ∧
      (∃ r, exSrcShort.getArrayRow 0 = Except.ok r) ∧
      ∃ o, exSrcShort.getObjectRow 0 = Except.ok o) :=
  ⟨by decide, window_in_range exCfgEmpty exSrcShort 0 (by decide)⟩

/-- C10, amended: a `color` that is neither a hex string beginning with `#`
nor a recognised palette name is always silently skipped — the remaining
attributes still apply — and the color branch never raises, since it tests
membership with `Array.prototype.includes`.  A `backgroundColor` is likewise
silently skipped for every unrecognised value except one naming an inherited
`Object.prototype` member: there the fallback truthiness test
`CHALK_BACKGROUND_COLORS[b]` passes with a non-string value, the styler
becomes `undefined`, and applying the style throws a TypeError instead of
skipping the attribute.  The original "never raises an error" is refuted by
`invalid_color_skipped_cex`. -/
theorem invalid_color_skipped (s : Style) (c b : String) (t : Str)
    (hc1 : startsHash c = false) (hc2 : chalkColorNames.contains c = false)
    (hb1 : startsHash b = false) (hb2 : chalkBackgroundColorNames.contains b = false)
    (hb3 : chalkBackgroundColors.lookup b = none) :
    applyStyle t { s with color := some c } = applyStyle t { s with color := none } ∧
    (objectProtoKeys.contains b = false →
      applyStyleJS t { s with backgroundColor := some b } =
        Except.ok (applyStyle t { s with backgroundColor := none })) ∧
    (objectProtoKeys.contains b = true → containsEsc t = false →
      applyStyleJS t { s with backgroundColor := some b } = Except.error ()) := by
  have hc2m : c ∉ chalkColorNames := by simpa using hc2
  have hb2m : b ∉ chalkBackgroundColorNames := by simpa using hb2
  refine ⟨?_, ?_, ?_⟩
  · have hops1 : applyStyleOps { s with color := some c } =
        applyStyleOps { s with color := none } := by
      unfold applyStyleOps
      have h1 : colorOps { s with color := some c } = [] := by
        unfold colorOps
        simp [hc1, hc2m]
      rw [h1]
      rfl
    unfold applyStyle
    rw [hops1]
  · intro hb4
    have hb4m : b ∉ objectProtoKeys := by simpa using hb4
    have hres : bgResolve { s with backgroundColor := some b } = Except.ok [] := by
      unfold bgResolve
      simp [hb1, hb2m, hb3, hb4m]
    by_cases hesc : containsEsc t = true
    · unfold applyStyleJS applyStyle
      rw [if_pos hesc, if_pos hesc]
    · unfold applyStyleJS applyStyle
      rw [if_neg hesc, if_neg hesc, hres]
      rfl
  · intro hb4 hesc
    have hb4m : b ∈ objectProtoKeys := by simpa using hb4
    have hres : bgResolve { s with backgroundColor := some b } = Except.error () := by
      unfold bgResolve
      simp [hb1, hb2m, hb3, hb4m]
    unfold applyStyleJS
    rw [if_neg (by simp [hesc]), hres]

theorem invalid_color_skipped_cex :
    startsHash ("toString") = false ∧
    chalkColorNames.contains ("toString") = false ∧
    chalkBackgroundColorNames.contains ("toString") = false ∧
    chalkBackgroundColors.lookup ("toString") = none ∧
    applyStyleJS (glyphs 'x' 1) { backgroundColor := some ("toString") } =
      Except.error () :=
  ⟨by decide, by decide, by decide, by decide, by rfl⟩

theorem invalid_color_skipped_witness :
    (startsHash ("notacolor") = false ∧ chalkColorNames.contains ("notacolor") = false ∧
      startsHash ("nosuchbg") = false ∧
      chalkBackgroundColorNames.contains ("nosuchbg") = false ∧
      chalkBackgroundColors.lookup ("nosuchbg") = none ∧
      objectProtoKeys.contains ("nosuchbg") = false ∧
      startsHash ("valueOf") = false ∧
      chalkBackgroundColorNames.contains ("valueOf") = false ∧
      chalkBackgroundColors.lookup ("valueOf") = none ∧
      objectProtoKeys.contains ("valueOf") = true ∧
      containsEsc (glyphs 'x' 1) = false) ∧
    applyStyle (glyphs 'x' 1) { bold := some true, color := some ("notacolor") } =
      applyStyle (glyphs 'x' 1) { bold := some true, color := none } ∧
    applyStyleJS (glyphs 'x' 1) { bold := some true, backgroundColor := some ("nosuchbg") } =
      Except.ok (applyStyle (glyphs 'x' 1) { bold := some true, backgroundColor := none }) ∧
    applyStyleJS (glyphs 'x' 1) { bold := some true, backgroundColor := some ("valueOf") } =
      Except.error () :=
  ⟨by decide,
   (invalid_color_skipped { bold := some true } ("notacolor") ("nosuchbg") (glyphs 'x' 1)
     (by decide) (by decide) (by decide) (by decide) (by decide)).1,
   (invalid_color_skipped { bold := some true } ("notacolor") ("nosuchbg") (glyphs 'x' 1)
     (by decide) (by decide) (by decide) (by decide) (by decide)).2.1 (by decide),
   (invalid_color_skipped { bold := some true } ("notacolor") ("valueOf") (glyphs 'x' 1)
     (by decide) (by decide) (by decide) (by decide) (by decide)).2.2 (by decide) (by decide)⟩

end TTP
